import Mathlib

/-!
Verification of the MusicSort watcher (music_sorter.py): a shallow embedding
of its filename sanitization, lock probing, metadata extraction, destination
resolution, directory-readiness tracking and residual reconciliation, with
theorems checking the specified properties of these components.

Strings manipulated by the Python code are modelled as lists of characters
(`List Char`); file paths handled by the watcher are modelled as lists of
path segments where convenient, and as character lists where the code builds
path strings (os.path.join et al.).
-/

namespace MusicSort

/-- Characters treated as whitespace by Python's str.rstrip (the ASCII ones;
after the sanitization filter only the plain space can occur anyway). -/
def pyIsSpace (c : Char) : Bool :=
  c = ' ' || c = '\t' || c = '\n' || c = '\r' || c = Char.ofNat 11 || c = Char.ofNat 12

/-- A character kept by sanitize_filename: Python's c.isalnum() (modelled on the
alphanumerics) or one of '.', '_', ' '. -/
def keepChar (c : Char) : Bool :=
  c.isAlphanum || c = '.' || c = '_' || c = ' '

/-- Python str.rstrip(): drop trailing whitespace characters. -/
def pyRstrip (s : List Char) : List Char :=
  (s.reverse.dropWhile pyIsSpace).reverse

/-- Embeds sanitize_filename (music_sorter.py line 343-345): keep only the
characters accepted by keepChar, then strip trailing whitespace. -/
def sanitize_filename (s : List Char) : List Char :=
  pyRstrip (s.filter keepChar)

theorem dropWhile_idem (p : Char → Bool) (l : List Char) :
    (l.dropWhile p).dropWhile p = l.dropWhile p := by
  induction l with
  | nil => rfl
  | cons c rest ih =>
    by_cases h : p c = true
    · simp [List.dropWhile_cons, h, ih]
    · simp [List.dropWhile_cons, h]

theorem mem_pyRstrip {c : Char} {l : List Char} (h : c ∈ pyRstrip l) : c ∈ l := by
  have h1 : c ∈ l.reverse.dropWhile pyIsSpace := by
    simpa [pyRstrip] using h
  have h2 : c ∈ l.reverse := (List.dropWhile_sublist _).mem h1
  simpa using h2

theorem pyRstrip_idem (l : List Char) : pyRstrip (pyRstrip l) = pyRstrip l := by
  simp [pyRstrip, dropWhile_idem]

theorem pyRstrip_filter_of_all {p : Char → Bool} {l : List Char}
    (h : ∀ c ∈ l, p c = true) : (pyRstrip l).filter p = pyRstrip l := by
  apply List.filter_eq_self.mpr
  intro c hc
  exact h c (mem_pyRstrip hc)

/-- C9: sanitize_filename is idempotent, its output contains only
alphanumerics, '.', '_' and space, and it never ends in whitespace (it is a
plain total function of its input, so determinism and totality are immediate
from the definition). -/
theorem C9_sanitize_idempotent_and_closed :
    ∀ s : List Char,
      sanitize_filename (sanitize_filename s) = sanitize_filename s ∧
      (sanitize_filename s).all keepChar = true ∧
      pyIsSpace ((sanitize_filename s).getLastD 'x') = false := by
  intro s
  have hmem : ∀ c ∈ sanitize_filename s, keepChar c = true := by
    intro c hc
    have : c ∈ (s.filter keepChar) := mem_pyRstrip hc
    exact (List.mem_filter.mp this).2
  refine ⟨?_, ?_, ?_⟩
  · show pyRstrip ((sanitize_filename s).filter keepChar) = sanitize_filename s
    rw [List.filter_eq_self.mpr hmem]
    exact pyRstrip_idem (s.filter keepChar)
  · exact List.all_eq_true.mpr hmem
  · rcases hlast : (s.filter keepChar).reverse.dropWhile pyIsSpace with _ | ⟨c, rest⟩
    · simp [sanitize_filename, pyRstrip, hlast, List.getLastD]
      decide
    · have hc : pyIsSpace c = false := by
        have := List.head?_dropWhile_not pyIsSpace (s.filter keepChar).reverse
        rw [hlast] at this
        simpa using this
      have h3 : (sanitize_filename s).getLast? = some c := by
        show (((s.filter keepChar).reverse.dropWhile pyIsSpace).reverse).getLast? = some c
        rw [List.getLast?_reverse, hlast]
        rfl
      rw [List.getLastD_eq_getLast?, h3]
      simpa using hc

/-- Embeds the retry loop of is_file_locked (music_sorter.py line 49-65).
The k-th attempt to open the file in append mode succeeds iff openOk k; each
failed attempt sleeps for the check interval, which is the only passage of
time modelled, matching the loop guard time.time() - start_time < timeout.
The fuel argument only drives the recursion; timeout + 1 units are enough
whenever the interval is at least one. -/
def lockLoop (openOk : Nat → Bool) (timeout interval : Nat) : Nat → Nat → Nat → Bool
  | 0, _, _ => true
  | fuel + 1, elapsed, k =>
    if elapsed < timeout then
      if openOk k then false
      else lockLoop openOk timeout interval fuel (elapsed + interval) (k + 1)
    else true

/-- Embeds is_file_locked (music_sorter.py line 49-65): repeatedly attempt to
open the file, returning false (unlocked) on the first success and true
(locked) once the timeout has elapsed with no success. -/
def is_file_locked (openOk : Nat → Bool) (timeout : Nat := 60) (interval : Nat := 1) : Bool :=
  lockLoop openOk timeout interval (timeout + 1) 0 0

theorem lockLoop_false_iff (openOk : Nat → Bool) (timeout interval : Nat)
    (fuel elapsed k : Nat) (hfuel : timeout ≤ elapsed + fuel * interval) :
    lockLoop openOk timeout interval fuel elapsed k = false ↔
      ∃ m, elapsed + m * interval < timeout ∧ openOk (k + m) = true := by
  induction fuel generalizing elapsed k with
  | zero =>
    simp only [lockLoop]
    constructor
    · intro h; exact absurd h (by simp)
    · rintro ⟨m, hm, -⟩
      simp at hfuel
      omega
  | succ fuel ih =>
    simp only [lockLoop]
    by_cases hel : elapsed < timeout
    · rw [if_pos hel]
      by_cases hok : openOk k = true
      · rw [if_pos hok]
        constructor
        · intro _; exact ⟨0, by simpa using hel, by simpa using hok⟩
        · intro _; rfl
      · rw [if_neg hok]
        have hstep : timeout ≤ elapsed + interval + fuel * interval := by
          have h : (fuel + 1) * interval = fuel * interval + interval := by ring
          omega
        rw [ih (elapsed + interval) (k + 1) hstep]
        constructor
        · rintro ⟨m, hm, hm2⟩
          refine ⟨m + 1, ?_, ?_⟩
          · have h : (m + 1) * interval = m * interval + interval := by ring
            omega
          · convert hm2 using 2
            omega
        · rintro ⟨m, hm, hm2⟩
          cases m with
          | zero =>
            exfalso
            apply hok
            simpa using hm2
          | succ m' =>
            refine ⟨m', ?_, ?_⟩
            · have h1 : (m' + 1) * interval = m' * interval + interval := by ring
              have h2 : Nat.succ m' * interval = m' * interval + interval := by
                rw [Nat.succ_eq_add_one]
                ring
              omega
            · convert hm2 using 2
              omega
    · rw [if_neg hel]
      constructor
      · intro h; exact absurd h (by simp)
      · rintro ⟨m, hm, -⟩
        omega

theorem is_file_locked_false_iff (openOk : Nat → Bool) (timeout interval : Nat)
    (hint : 1 ≤ interval) :
    is_file_locked openOk timeout interval = false ↔
      ∃ m, m * interval < timeout ∧ openOk m = true := by
  rw [is_file_locked, lockLoop_false_iff]
  · constructor
    · rintro ⟨m, h1, h2⟩; exact ⟨m, by omega, by simpa using h2⟩
    · rintro ⟨m, h1, h2⟩; exact ⟨m, by omega, by simpa using h2⟩
  · have : timeout + 1 ≤ (timeout + 1) * interval := Nat.le_mul_of_pos_right _ hint
    omega

/-! Path strings and the pieces of process_music_file. -/

/-- Python strings are modelled as lists of characters. -/
abbrev PyStr := List Char

/-- Embeds posixpath.join for two components: an absolute second component
replaces the first, otherwise a separator is inserted unless the first
component is empty or already ends in one. -/
def pyJoin (a b : PyStr) : PyStr :=
  if b.head? = some '/' then b
  else if a = [] ∨ a.getLast? = some '/' then a ++ b
  else a ++ '/' :: b

/-- Decimal digits of a positive natural number, most significant first; the
fuel argument only drives the recursion (n itself is always enough). -/
def natDigitsAux : Nat → Nat → PyStr
  | 0, _ => []
  | fuel + 1, n => if n = 0 then [] else natDigitsAux fuel (n / 10) ++ [Nat.digitChar (n % 10)]

/-- Decimal representation of a natural number. -/
def natRepr (n : Nat) : PyStr :=
  if n = 0 then ['0'] else natDigitsAux n n

/-- Decimal representation of an integer, as Python str(int) produces it. -/
def intRepr (n : Int) : PyStr :=
  if n < 0 then '-' :: natRepr n.natAbs else natRepr n.toNat

/-- Embeds the Python format f"{track_num:02d}" (music_sorter.py line 307):
the decimal representation, left-padded with a zero to width two. -/
def format02d (n : Int) : PyStr :=
  let s := intRepr n
  if s.length < 2 then '0' :: s else s

/-- Python str.strip(): drop leading and trailing whitespace. -/
def pyStrip (s : PyStr) : PyStr :=
  pyRstrip (s.dropWhile pyIsSpace)

/-- Value of a decimal digit string, most significant first. -/
def digitsToNat (ds : PyStr) : Nat :=
  ds.foldl (fun a c => a * 10 + (c.toNat - 48)) 0

/-- Embeds Python int(str): optional surrounding whitespace, an optional
sign, then at least one decimal digit; anything else raises ValueError,
modelled as none. -/
def pyInt? (s : PyStr) : Option Int :=
  let t := pyStrip s
  let sd : Int × PyStr :=
    match t with
    | '+' :: rest => (1, rest)
    | '-' :: rest => (-1, rest)
    | rest => (1, rest)
  if sd.2 ≠ [] ∧ sd.2.all Char.isDigit then some (sd.1 * (digitsToNat sd.2 : Int))
  else none

/-- Python str.split('/')[0]: the prefix before the first slash. -/
def splitSlashHead (s : PyStr) : PyStr :=
  s.takeWhile (fun c => ¬ c = '/')

/-- The tag dictionary as mutagen exposes it: each of the five fields used by
the code is either absent or a list of string values. -/
structure AudioTags where
  artist : Option (List PyStr)
  album : Option (List PyStr)
  title : Option (List PyStr)
  tracknumber : Option (List PyStr)
  date : Option (List PyStr)
  deriving DecidableEq

/-- Embeds get_metadata_field (music_sorter.py line 245-260) for a text
field: a missing field yields None, and an empty value list (the IndexError
branch) also yields None. -/
def getTextField (v : Option (List PyStr)) : Option PyStr :=
  match v with
  | none => none
  | some l => l.head?

/-- Embeds get_metadata_field for the tracknumber field: the first value is
split at a "/N" total-tracks suffix and parsed with int(); a parse failure
(ValueError) yields None. -/
def getTrackField (v : Option (List PyStr)) : Option Int :=
  match v with
  | none => none
  | some l =>
    match l.head? with
    | none => none
    | some s => pyInt? (splitSlashHead s)

/-- Python truthiness of an optional string: None and the empty string are
falsy. -/
def truthyStr : Option PyStr → Bool
  | none => false
  | some s => !s.isEmpty

/-- Python truthiness of an optional integer: None and 0 are falsy. -/
def truthyInt : Option Int → Bool
  | none => false
  | some n => n != 0

/-- The suffix of a string starting at its last dot, if it has one. -/
def afterLastDot : PyStr → Option PyStr
  | [] => none
  | c :: rest =>
    match afterLastDot rest with
    | some s => some s
    | none => if c = '.' then some (c :: rest) else none

/-- Embeds the extension part of os.path.splitext on a base name: the suffix
from the last dot, except that dots leading the name do not start an
extension. -/
def splitextExt (base : PyStr) : PyStr :=
  match afterLastDot (base.dropWhile (fun c => c = '.')) with
  | some s => s
  | none => []

/-- Embeds the metadata validation and destination computation of
process_music_file (music_sorter.py line 280-308): extract the five fields,
require them all truthy, then build the sorted path with os.path.join from
the sanitized artist, album and title, the first four characters of the
date, the zero-padded track number and the extension of the original file
(given as its path segments). None means validation failed. -/
def sorted_dest (a : AudioTags) (fp : List PyStr) : Option PyStr :=
  match getTextField a.artist, getTextField a.album, getTextField a.title,
      getTrackField a.tracknumber, getTextField a.date with
  | some ar, some al, some ti, some tr, some yr =>
    if ar ≠ [] ∧ al ≠ [] ∧ ti ≠ [] ∧ tr ≠ 0 ∧ yr ≠ [] then
      let yr4 := yr.take 4
      let album_folder := sanitize_filename al ++ (" (".data) ++ yr4 ++ (")".data)
      let destination_dir := pyJoin (pyJoin ("sorted".data) (sanitize_filename ar)) album_folder
      let ext := (splitextExt (fp.getLastD [])).drop 1
      let new_filename := format02d tr ++ (" - ".data) ++ sanitize_filename ti ++ '.' :: ext
      some (pyJoin destination_dir new_filename)
    else none
  | _, _, _, _, _ => none

/-- The path template of the specification, written from the spec's words:
the literal string sorted/<sanitize(artist)>/<sanitize(album)> (<year>)/<NN>
- <sanitize(title)>.<ext> with the slashes as literal separators. -/
def resolve_spec (artist album title : PyStr) (track : Int) (year4 ext : PyStr) : PyStr :=
  ("sorted".data) ++ '/' ::
    (sanitize_filename artist ++ '/' ::
      (sanitize_filename album ++ (" (".data) ++ year4 ++ (")".data) ++ '/' ::
        (format02d track ++ (" - ".data) ++ sanitize_filename title ++ '.' :: ext)))

/-- Embeds os.path.relpath(d, 'watch') on a directory given as segments: cut
the watch prefix when it is there (the watch directory itself becomes '.'),
otherwise climb out of watch with a '..' segment. -/
def relpathWatch (dirsegs : List PyStr) : PyStr :=
  if dirsegs.head? = some ("watch".data) then
    match dirsegs.tail with
    | [] => ".".data
    | rest => List.intercalate ['/'] rest
  else
    List.intercalate ['/'] (("..".data) :: dirsegs)

/-- Embeds move_to_unknown (music_sorter.py line 224-239): the destination is
unknown/<relpath of the source directory under watch>/<file name>; the
intermediate directories are created with os.makedirs before the move. -/
def move_to_unknown_dest (fp : List PyStr) : PyStr :=
  pyJoin (pyJoin ("unknown".data) (relpathWatch fp.dropLast)) (fp.getLastD [])

/-! Helper lemmas about the characters of the built path pieces. -/

theorem keepChar_ne_slash {c : Char} (h : keepChar c = true) : c ≠ '/' := by
  intro hc
  subst hc
  simp [keepChar] at h

theorem sanitize_mem_ne_slash {c : Char} {s : PyStr} (h : c ∈ sanitize_filename s) :
    c ≠ '/' := by
  have hk : keepChar c = true := (List.mem_filter.mp (mem_pyRstrip h)).2
  exact keepChar_ne_slash hk

theorem head?_ne_slash_of_all {l : PyStr} (h : ∀ c ∈ l, c ≠ '/') :
    l.head? ≠ some '/' := by
  cases l with
  | nil => simp
  | cons c t =>
    simp only [List.head?_cons, ne_eq, Option.some.injEq]
    exact h c (by simp)

theorem mem_of_getLast?_eq {l : PyStr} {c : Char} (h : l.getLast? = some c) : c ∈ l := by
  rcases List.mem_getLast?_eq_getLast (l := l) (x := c) h with ⟨hne, hx⟩
  rw [hx]
  exact List.getLast_mem hne

theorem getLast?_ne_slash_of_all {l : PyStr} (h : ∀ c ∈ l, c ≠ '/') :
    l.getLast? ≠ some '/' := by
  intro hc
  exact h _ (mem_of_getLast?_eq hc) rfl

theorem natDigitsAux_ne_slash : ∀ fuel n, ∀ c ∈ natDigitsAux fuel n, c ≠ '/' := by
  intro fuel
  induction fuel with
  | zero => intro n c hc; simp [natDigitsAux] at hc
  | succ f ih =>
    intro n c hc
    by_cases h : n = 0
    · simp [natDigitsAux, h] at hc
    · simp only [natDigitsAux, h, if_false, List.mem_append, List.mem_singleton] at hc
      rcases hc with hc | hc
      · exact ih _ c hc
      · subst hc
        have h10 : n % 10 < 10 := Nat.mod_lt _ (by norm_num)
        revert h10
        generalize n % 10 = m
        intro h10
        interval_cases m <;> decide

theorem format02d_ne_slash (n : Int) : ∀ c ∈ format02d n, c ≠ '/' := by
  have hnat : ∀ m : Nat, ∀ c ∈ natRepr m, c ≠ '/' := by
    intro m c hc
    by_cases h : m = 0
    · simp [natRepr, h] at hc
      subst hc; decide
    · simp only [natRepr, h, if_false] at hc
      exact natDigitsAux_ne_slash m m c hc
  have hint : ∀ c ∈ intRepr n, c ≠ '/' := by
    intro c hc
    by_cases h : n < 0
    · simp only [intRepr, h, if_true, List.mem_cons] at hc
      rcases hc with hc | hc
      · subst hc; decide
      · exact hnat _ c hc
    · simp only [intRepr, h, if_false] at hc
      exact hnat _ c hc
  intro c hc
  simp only [format02d] at hc
  by_cases h : (intRepr n).length < 2
  · simp only [h, if_true, List.mem_cons] at hc
    rcases hc with hc | hc
    · subst hc; decide
    · exact hint c hc
  · simp only [h, if_false] at hc
    exact hint c hc

theorem pyJoin_eq_append {a b : PyStr} (hb : b.head? ≠ some '/') (ha : a ≠ [])
    (ha2 : a.getLast? ≠ some '/') : pyJoin a b = a ++ '/' :: b := by
  simp only [pyJoin, hb, if_false]
  rw [if_neg]
  simp [ha, ha2]

/-- C1 counterexample: for the valid record with artist "!", album "B",
title "T", track 1, date "1999", the path the code computes is
sorted/B (1999)/01 - T.mp3, not the literal template
sorted/<sanitize(artist)>/... = sorted//B (1999)/01 - T.mp3: os.path.join
collapses the empty sanitized-artist component. -/
theorem C1_counterexample :
    sorted_dest
        (AudioTags.mk (some ["!".data]) (some ["B".data]) (some ["T".data])
          (some ["1".data]) (some ["1999".data]))
        [("watch".data), ("d".data), ("a.mp3".data)] ≠
      some (resolve_spec ("!".data) ("B".data) ("T".data) 1 ("1999".data) ("mp3".data)) := by
  decide

/-- C1 (amended): for every record whose five extracted fields are all
truthy and whose sanitized artist is nonempty, the destination computed for
the move is exactly sorted/<sanitize(artist)>/<sanitize(album)> (<year>)/
<NN> - <sanitize(title)>.<ext>, with the year the first four characters of
the date, NN the track number zero-padded to two digits, and ext the
extension of the original file. -/
theorem C1_sorted_dest_template (a : AudioTags) (fp : List PyStr)
    (ar al ti yr : PyStr) (tr : Int)
    (har : getTextField a.artist = some ar)
    (hal : getTextField a.album = some al)
    (hti : getTextField a.title = some ti)
    (htr : getTrackField a.tracknumber = some tr)
    (hyr : getTextField a.date = some yr)
    (hval : ar ≠ [] ∧ al ≠ [] ∧ ti ≠ [] ∧ tr ≠ 0 ∧ yr ≠ [])
    (hns : sanitize_filename ar ≠ []) :
    sorted_dest a fp =
      some (resolve_spec ar al ti tr (yr.take 4) ((splitextExt (fp.getLastD [])).drop 1)) := by
  have hslash_sar : ∀ c ∈ sanitize_filename ar, c ≠ '/' := fun c hc => sanitize_mem_ne_slash hc
  have h1 : pyJoin ("sorted".data) (sanitize_filename ar) =
      ("sorted".data) ++ ('/' :: sanitize_filename ar) := by
    apply pyJoin_eq_append
    · exact head?_ne_slash_of_all (fun c hc => sanitize_mem_ne_slash hc)
    · decide
    · decide
  have hg1 : (("sorted".data) ++ ('/' :: sanitize_filename ar)).getLast? ≠ some '/' := by
    rw [List.getLast?_append_of_ne_nil _ (by simp)]
    cases hsa : sanitize_filename ar with
    | nil => exact absurd hsa hns
    | cons c t =>
      rw [List.getLast?_cons_cons]
      intro hcon
      have hm : '/' ∈ sanitize_filename ar := by
        rw [hsa]
        exact mem_of_getLast?_eq hcon
      exact sanitize_mem_ne_slash hm rfl
  have h2 : pyJoin (("sorted".data) ++ ('/' :: sanitize_filename ar))
      (sanitize_filename al ++ (" (".data) ++ yr.take 4 ++ (")".data)) =
      (("sorted".data) ++ ('/' :: sanitize_filename ar)) ++
        ('/' :: (sanitize_filename al ++ (" (".data) ++ yr.take 4 ++ (")".data))) := by
    apply pyJoin_eq_append
    · cases hsa : sanitize_filename al with
      | nil =>
        rw [show (" (".data) = [' ', '('] from rfl]
        simp
      | cons c t =>
        have hc : c ∈ sanitize_filename al := by rw [hsa]; simp
        have := sanitize_mem_ne_slash hc
        simp [hsa, this]
    · simp
    · exact hg1
  have hg2 : ((("sorted".data) ++ ('/' :: sanitize_filename ar)) ++
      ('/' :: (sanitize_filename al ++ (" (".data) ++ yr.take 4 ++ (")".data)))).getLast? ≠
        some '/' := by
    rw [List.getLast?_append_of_ne_nil _ (by simp)]
    rw [← List.singleton_append]
    rw [List.getLast?_append_of_ne_nil _ (by simp)]
    rw [List.getLast?_append_of_ne_nil _ (by decide)]
    decide
  have h3 : pyJoin
      ((("sorted".data) ++ ('/' :: sanitize_filename ar)) ++
        ('/' :: (sanitize_filename al ++ (" (".data) ++ yr.take 4 ++ (")".data))))
      (format02d tr ++ (" - ".data) ++ sanitize_filename ti ++
        '.' :: (splitextExt (fp.getLastD [])).drop 1) =
      ((("sorted".data) ++ ('/' :: sanitize_filename ar)) ++
        ('/' :: (sanitize_filename al ++ (" (".data) ++ yr.take 4 ++ (")".data)))) ++
        ('/' :: (format02d tr ++ (" - ".data) ++ sanitize_filename ti ++
          '.' :: (splitextExt (fp.getLastD [])).drop 1)) := by
    apply pyJoin_eq_append
    · cases hfd : format02d tr with
      | nil =>
        exfalso
        have : (format02d tr).length < 1 := by rw [hfd]; simp
        simp only [format02d] at this
        by_cases hh : (intRepr tr).length < 2
        · rw [if_pos hh] at this
          simp at this
        · rw [if_neg hh] at this
          omega
      | cons c t =>
        have hc : c ∈ format02d tr := by rw [hfd]; simp
        have := format02d_ne_slash tr c hc
        simp [hfd, this]
    · simp
    · exact hg2
  simp only [sorted_dest, har, hal, hti, htr, hyr]
  rw [if_pos hval]
  rw [h1, h2, h3, resolve_spec]
  simp [List.append_assoc]

/-! The directory-readiness tracker and the batch pipeline. -/

/-- Outcomes of the file-system and tag-library calls the handler makes,
abstracted as oracles keyed by the file path (given as segments):
existence, the readable tag record (none when mutagen cannot parse the
file; an MP3 whose EasyID3 fallback creates an empty tag set behaves like a
record with every field absent, which the model folds into the same none),
presence of an embedded front cover, presence of a .lrc sidecar, success of
find_cover_art per directory, and the success of the k-th open attempt of
the lock probe. -/
structure Env where
  fileExists : List PyStr → Bool
  tags : List PyStr → Option AudioTags
  hasCover : List PyStr → Bool
  lrcExists : List PyStr → Bool
  coverFound : List PyStr → Bool
  openAttempt : List PyStr → Nat → Bool

/-- Observable per-file effects of the pipeline, in program order. -/
inductive Action where
  | coverEmbed (p : List PyStr)
  | lyricsEmbed (p : List PyStr)
  | moveSorted (p : List PyStr) (dest : PyStr)
  | moveUnknown (p : List PyStr) (dest : PyStr)
  | reconcile (dir : List PyStr)
  deriving DecidableEq

/-- The path an action is about (the directory, for reconcile). -/
def Action.path : Action → List PyStr
  | .coverEmbed p => p
  | .lyricsEmbed p => p
  | .moveSorted p _ => p
  | .moveUnknown p _ => p
  | .reconcile d => d

/-- Embeds process_music_file (music_sorter.py line 241-341): read the
tags, validate and resolve the destination (sorted_dest), embed sidecar
lyrics only after validation passed, then move the file. Returns the
success flag and the emitted actions. -/
def process_music_file (env : Env) (fp : List PyStr) : Bool × List Action :=
  match env.tags fp with
  | none => (false, [])
  | some a =>
    match sorted_dest a fp with
    | none => (false, [])
    | some dest =>
      let lyricsActs := if env.lrcExists fp then [Action.lyricsEmbed fp] else []
      (true, lyricsActs ++ [Action.moveSorted fp dest])

/-- Per-directory tracking state (music_sorter.py line 67-76); the Python
sets are modelled as duplicate-free lists. -/
structure DirState where
  pending : List (List PyStr)
  processed : List (List PyStr)
  failed : List (List PyStr)
  deriving DecidableEq

/-- Embeds one iteration of the process_directory loop (music_sorter.py
line 128-161): skip and drop a vanished file; otherwise embed the found
cover art first (for any readable file that does not already carry a front
cover), then process the file and move it between the sets, falling back
to move_to_unknown on failure. -/
def handleOne (env : Env) (coverFound : Bool) (st : DirState) (fp : List PyStr) :
    DirState × List Action :=
  if env.fileExists fp then
    let coverActs :=
      if coverFound ∧ (env.tags fp).isSome ∧ ¬ env.hasCover fp then [Action.coverEmbed fp]
      else []
    let pm := process_music_file env fp
    if pm.1 then
      ({ st with pending := st.pending.erase fp, processed := st.processed.insert fp },
        coverActs ++ pm.2)
    else
      ({ st with pending := st.pending.erase fp, failed := st.failed.insert fp },
        coverActs ++ pm.2 ++ [Action.moveUnknown fp (move_to_unknown_dest fp)])
  else
    ({ st with pending := st.pending.erase fp }, [])

/-- Creation events delivered while the pass loop runs only add paths to
the live pending set (and bump the arrival time); this applies one batch of
them. -/
def applyArrivals (st : DirState) (ps : List (List PyStr)) : DirState :=
  { st with pending := ps.foldl (fun l p => l.insert p) st.pending }

/-- Embeds the snapshot loop of process_directory (music_sorter.py line
126-161): the k-th batch of arrs lands in the live pending set just before
the k-th snapshot entry is handled. -/
def passLoop (env : Env) (coverFound : Bool) :
    List (List PyStr) → List (List (List PyStr)) → DirState → DirState × List Action
  | [], _, st => (st, [])
  | p :: rest, arrs, st =>
    let st1 := applyArrivals st (arrs.headD [])
    let r1 := handleOne env coverFound st1 p
    let r2 := passLoop env coverFound rest arrs.tail r1.1
    (r2.1, r1.2 ++ r2.2)

/-- Embeds process_directory (music_sorter.py line 123-167): snapshot the
pending set, run the loop (finalArr are the arrivals landing between the
last iteration and the cleanup check), and if the live pending set drained,
run the reconciler (handle_remaining_files) and drop the directory state,
returning none. -/
def process_directory (env : Env) (coverFound : Bool) (dir : List PyStr) (st : DirState)
    (arrs : List (List (List PyStr))) (finalArr : List (List PyStr)) :
    Option DirState × List Action :=
  let r := passLoop env coverFound st.pending arrs st
  let st2 := applyArrivals r.1 finalArr
  if st2.pending = [] then (none, r.2 ++ [Action.reconcile dir])
  else (some st2, r.2)

/-- Lookup in an association list (a Python dict with one binding per key). -/
def alookup {α : Type} [DecidableEq α] {β : Type} : List (α × β) → α → Option β
  | [], _ => none
  | (k, v) :: rest, key => if key = k then some v else alookup rest key

/-- Set a key in an association list. -/
def aset {α : Type} [DecidableEq α] {β : Type} : List (α × β) → α → β → List (α × β)
  | [], key, v => [(key, v)]
  | (k, w) :: rest, key, v => if key = k then (k, v) :: rest else (k, w) :: aset rest key v

/-- Delete a key from an association list. -/
def aerase {α : Type} [DecidableEq α] {β : Type} : List (α × β) → α → List (α × β)
  | [], _ => []
  | (k, w) :: rest, key => if key = k then rest else (k, w) :: aerase rest key

/-- The handler's process-wide state: the directory_state and
last_file_time dicts, keyed by the directory segments; timestamps are
modelled as integers (the readiness logic only compares time differences
against whole seconds). -/
structure Tracker where
  registry : List ((List PyStr) × DirState)
  lastTime : List ((List PyStr) × ℤ)
  deriving DecidableEq

/-- Embeds check_directory_readiness (music_sorter.py line 94-121) at time
now: do nothing within the 2-second debounce window, or when some pending
file that still exists probes as locked; otherwise look for cover art and
run process_directory, dropping the directory from both dicts when its
state drains (the code indexes the dicts directly and is only called for
tracked directories; an untracked directory is a no-op here). -/
def check_directory_readiness (env : Env) (tr : Tracker) (dir : List PyStr) (now : ℤ)
    (arrs : List (List (List PyStr))) (finalArr : List (List PyStr)) :
    Tracker × List Action :=
  match alookup tr.registry dir, alookup tr.lastTime dir with
  | some st, some last =>
    if now - last < 2 then (tr, [])
    else
      let lockedFiles := st.pending.filter
        (fun p => env.fileExists p && is_file_locked (env.openAttempt p) 60 1)
      if lockedFiles = [] then
        let r := process_directory env (env.coverFound dir) dir st arrs finalArr
        match r.1 with
        | none =>
          (Tracker.mk (aerase tr.registry dir) (aerase tr.lastTime dir), r.2)
        | some st2 => ({ tr with registry := aset tr.registry dir st2 }, r.2)
      else (tr, [])
  | _, _ => (tr, [])

/-- The media extensions recognized by on_created, case-sensitive, matching
filepath.endswith (music_sorter.py line 83). -/
def mediaExts : List PyStr :=
  [(".mp3".data), (".flac".data), (".ogg".data), (".m4a".data)]

/-- Python str.endswith with a tuple of suffixes. -/
def endsWithOne (s : PyStr) (sufs : List PyStr) : Bool :=
  sufs.any (fun suf => suf.isSuffixOf s)

/-- The path string of a segment path. -/
def joinSegs (fp : List PyStr) : PyStr :=
  List.intercalate ['/'] fp

/-- Embeds on_created (music_sorter.py line 78-92): ignore directories and
non-media paths; otherwise ensure the directory is tracked, add the file to
its pending set, stamp the arrival time with now, and run the readiness
check (which is always inside the fresh debounce window). -/
def on_created (env : Env) (tr : Tracker) (isDir : Bool) (fp : List PyStr) (now : ℤ) :
    Tracker × List Action :=
  if isDir then (tr, [])
  else if endsWithOne (joinSegs fp) mediaExts then
    let dir := fp.dropLast
    let st := (alookup tr.registry dir).getD (DirState.mk [] [] [])
    let st2 := { st with pending := st.pending.insert fp }
    let tr2 := Tracker.mk (aset tr.registry dir st2) (aset tr.lastTime dir now)
    check_directory_readiness env tr2 dir now [] []
  else (tr, [])

/-- One event of the driver: a watchdog creation event, or one
per-directory readiness check of the periodic tick (music_sorter.py line
431-436), with the arrivals its pass would see. -/
inductive Ev where
  | created (isDir : Bool) (fp : List PyStr) (now : ℤ)
  | tick (dir : List PyStr) (now : ℤ) (arrs : List (List (List PyStr)))
      (finalArr : List (List PyStr))
  deriving DecidableEq

/-- Step the tracker by one event. -/
def stepEv (env : Env) (tr : Tracker) : Ev → Tracker × List Action
  | .created isDir fp now => on_created env tr isDir fp now
  | .tick dir now arrs finalArr => check_directory_readiness env tr dir now arrs finalArr

/-- Run a sequence of events, collecting the actions. -/
def runEvs (env : Env) (tr : Tracker) : List Ev → Tracker × List Action
  | [] => (tr, [])
  | e :: rest =>
    let r := stepEv env tr e
    let r2 := runEvs env r.1 rest
    (r2.1, r.2 ++ r2.2)

/-! Association-list helpers. -/

theorem alookup_aset_self {α : Type} [DecidableEq α] {β : Type}
    (l : List (α × β)) (k : α) (v : β) : alookup (aset l k v) k = some v := by
  induction l with
  | nil => simp [aset, alookup]
  | cons kv rest ih =>
    obtain ⟨k2, w⟩ := kv
    by_cases h : k = k2
    · simp [aset, h, alookup]
    · simp [aset, h, alookup, ih]

/-- Readiness check inside the debounce window: a no-op. -/
theorem check_window_noop (env : Env) (tr : Tracker) (dir : List PyStr) (now : ℤ)
    (arrs : List (List (List PyStr))) (finalArr : List (List PyStr))
    (st : DirState) (last : ℤ)
    (hst : alookup tr.registry dir = some st)
    (hlast : alookup tr.lastTime dir = some last)
    (hwin : now - last < 2) :
    check_directory_readiness env tr dir now arrs finalArr = (tr, []) := by
  simp only [check_directory_readiness, hst, hlast]
  rw [if_pos hwin]

/-- C6: the readiness check never triggers the pipeline while now minus
lastArrivalTime is under 2 seconds, regardless of how long the directory
has been tracked (tracker unchanged, no actions); and every qualifying
creation event restamps the directory's last arrival time with the current
time, reopening the quiescence window. -/
theorem C6_quiescence_window (env : Env) :
    (∀ (tr : Tracker) (dir : List PyStr) (now : ℤ) arrs finalArr st last,
        alookup tr.registry dir = some st →
        alookup tr.lastTime dir = some last →
        now - last < 2 →
        check_directory_readiness env tr dir now arrs finalArr = (tr, [])) ∧
    (∀ (tr : Tracker) (fp : List PyStr) (now : ℤ),
        endsWithOne (joinSegs fp) mediaExts = true →
        alookup (on_created env tr false fp now).1.lastTime fp.dropLast = some now) := by
  constructor
  · intro tr dir now arrs finalArr st last hst hlast hwin
    exact check_window_noop env tr dir now arrs finalArr st last hst hlast hwin
  · intro tr fp now hmedia
    have hred : on_created env tr false fp now =
        check_directory_readiness env
          (Tracker.mk
            (aset tr.registry fp.dropLast
              { (alookup tr.registry fp.dropLast).getD (DirState.mk [] [] []) with
                pending := ((alookup tr.registry fp.dropLast).getD
                  (DirState.mk [] [] [])).pending.insert fp })
            (aset tr.lastTime fp.dropLast now))
          fp.dropLast now [] [] := by
      simp [on_created, hmedia]
    rw [hred]
    rw [check_window_noop env _ fp.dropLast now [] [] _ now
      (alookup_aset_self _ _ _) (alookup_aset_self _ _ _) (by norm_num)]
    exact alookup_aset_self _ _ _

/-- C7: the lock prober returns false immediately when the first open
attempt succeeds; with a positive interval it returns false exactly when
some attempt made within the timeout succeeds (one interval is slept after
each failure); with the default 60s timeout and 1s interval it returns true
once no attempt in the window succeeded; and a tracked directory one of
whose still-existing pending files probes as locked is not processed: the
readiness check leaves the tracker unchanged (the directory stays tracked
for the next periodic tick) and performs no pipeline action. -/
theorem C7_lock_probe_and_defer :
    (∀ (openOk : Nat → Bool) (timeout interval : Nat),
        openOk 0 = true → 0 < timeout →
        is_file_locked openOk timeout interval = false) ∧
    (∀ (openOk : Nat → Bool) (timeout interval : Nat), 1 ≤ interval →
        (is_file_locked openOk timeout interval = false ↔
          ∃ m, m * interval < timeout ∧ openOk m = true)) ∧
    (∀ openOk : Nat → Bool, (∀ m, m < 60 → openOk m = false) →
        is_file_locked openOk 60 1 = true) ∧
    (∀ (env : Env) (tr : Tracker) (dir : List PyStr) (now : ℤ) arrs finalArr st
        (last : ℤ) (p : List PyStr),
        alookup tr.registry dir = some st →
        alookup tr.lastTime dir = some last →
        p ∈ st.pending → env.fileExists p = true →
        is_file_locked (env.openAttempt p) 60 1 = true →
        check_directory_readiness env tr dir now arrs finalArr = (tr, [])) := by
  refine ⟨?_, ?_, ?_, ?_⟩
  · intro openOk timeout interval h0 ht
    rw [is_file_locked]
    simp only [lockLoop]
    rw [if_pos ht, if_pos h0]
  · intro openOk timeout interval hint
    exact is_file_locked_false_iff openOk timeout interval hint
  · intro openOk hall
    cases h : is_file_locked openOk 60 1 with
    | true => rfl
    | false =>
      rcases (is_file_locked_false_iff openOk 60 1 (by norm_num)).mp h with ⟨m, hm, hok⟩
      rw [hall m (by omega)] at hok
      cases hok
  · intro env tr dir now arrs finalArr st last p hst hlast hp hex hlock
    simp only [check_directory_readiness, hst, hlast]
    by_cases hwin : now - last < 2
    · rw [if_pos hwin]
    · rw [if_neg hwin]
      have hmem : p ∈ st.pending.filter
          (fun q => env.fileExists q && is_file_locked (env.openAttempt q) 60 1) := by
        rw [List.mem_filter]
        refine ⟨hp, ?_⟩
        rw [hex, hlock]
        rfl
      have hne : st.pending.filter
          (fun q => env.fileExists q && is_file_locked (env.openAttempt q) 60 1) ≠ [] :=
        List.ne_nil_of_mem hmem
      rw [if_neg hne]

/-- Witness for C6 at a concrete tracker and time. -/
theorem C6_quiescence_window_witness :
    check_directory_readiness
        (Env.mk (fun _ => true) (fun _ => none) (fun _ => false) (fun _ => false)
          (fun _ => false) (fun _ _ => true))
        (Tracker.mk [([("watch".data)], DirState.mk [[("watch".data), ("a.mp3".data)]] [] [])]
          [([("watch".data)], 0)])
        [("watch".data)] 1 [] [] =
      (Tracker.mk [([("watch".data)], DirState.mk [[("watch".data), ("a.mp3".data)]] [] [])]
        [([("watch".data)], 0)], []) ∧
    alookup
        (on_created
          (Env.mk (fun _ => true) (fun _ => none) (fun _ => false) (fun _ => false)
            (fun _ => false) (fun _ _ => true))
          (Tracker.mk [] []) false [("watch".data), ("b.mp3".data)] 5).1.lastTime
        ([("watch".data), ("b.mp3".data)] : List PyStr).dropLast = some 5 :=
  ⟨(C6_quiescence_window _).1 _ _ 1 [] [] _ 0 rfl rfl (by norm_num),
   (C6_quiescence_window _).2 _ _ 5 (by decide)⟩

/-- Witness for C7: an immediately unlockable file, a probe succeeding at
attempt 3, a never-unlockable file, and a deferred directory. -/
theorem C7_lock_probe_and_defer_witness :
    is_file_locked (fun _ => true) 60 1 = false ∧
    (is_file_locked (fun k => decide (k = 3)) 60 1 = false ↔
      ∃ m, m * 1 < 60 ∧ decide (m = 3) = true) ∧
    is_file_locked (fun _ => false) 60 1 = true ∧
    check_directory_readiness
        (Env.mk (fun _ => true) (fun _ => none) (fun _ => false) (fun _ => false)
          (fun _ => false) (fun _ _ => false))
        (Tracker.mk [([("watch".data)], DirState.mk [[("watch".data), ("a.mp3".data)]] [] [])]
          [([("watch".data)], 0)])
        [("watch".data)] 10 [] [] =
      (Tracker.mk [([("watch".data)], DirState.mk [[("watch".data), ("a.mp3".data)]] [] [])]
        [([("watch".data)], 0)], []) :=
  ⟨C7_lock_probe_and_defer.1 (fun _ => true) 60 1 rfl (by norm_num),
   C7_lock_probe_and_defer.2.1 (fun k => decide (k = 3)) 60 1 (by norm_num),
   C7_lock_probe_and_defer.2.2.1 (fun _ => false) (fun m _ => rfl),
   C7_lock_probe_and_defer.2.2.2 _ _ _ 10 [] []
     (DirState.mk [[("watch".data), ("a.mp3".data)]] [] []) 0
     [("watch".data), ("a.mp3".data)] rfl rfl (by decide) rfl (by decide)⟩

/-- C10: a record with all five tags present but a falsy extracted value
(track number 0, also in its 0/N form, or an empty artist, album, title or
date string) fails the validation gate exactly like a record with a missing
field: process_music_file reports failure and the pass moves the file to
the unknown tree. -/
theorem C10_falsy_invalid (env : Env) (coverFound : Bool) (st : DirState)
    (fp : List PyStr) (a : AudioTags) (ar al ti yr : PyStr) (tr : Int)
    (htags : env.tags fp = some a)
    (har : getTextField a.artist = some ar)
    (hal : getTextField a.album = some al)
    (hti : getTextField a.title = some ti)
    (htr : getTrackField a.tracknumber = some tr)
    (hyr : getTextField a.date = some yr)
    (hfalsy : tr = 0 ∨ ar = [] ∨ al = [] ∨ ti = [] ∨ yr = [])
    (hex : env.fileExists fp = true) :
    (process_music_file env fp).1 = false ∧
      Action.moveUnknown fp (move_to_unknown_dest fp) ∈ (handleOne env coverFound st fp).2 := by
  have hnval : ¬(ar ≠ [] ∧ al ≠ [] ∧ ti ≠ [] ∧ tr ≠ 0 ∧ yr ≠ []) := by
    rintro ⟨h1, h2, h3, h4, h5⟩
    rcases hfalsy with h | h | h | h | h
    · exact h4 h
    · exact h1 h
    · exact h2 h
    · exact h3 h
    · exact h5 h
  have hdest : sorted_dest a fp = none := by
    simp only [sorted_dest, har, hal, hti, htr, hyr]
    rw [if_neg hnval]
  have hpm : process_music_file env fp = (false, []) := by
    simp only [process_music_file, htags, hdest]
  constructor
  · rw [hpm]
  · simp only [handleOne, hex, if_true, hpm]
    simp

/-- Witness for C10 with a 0/10 track number. -/
theorem C10_falsy_invalid_witness :
    (process_music_file
        (Env.mk (fun _ => true)
          (fun _ => some (AudioTags.mk (some [("A".data)]) (some [("B".data)])
            (some [("T".data)]) (some [("0/10".data)]) (some [("1999".data)])))
          (fun _ => false) (fun _ => false) (fun _ => false) (fun _ _ => true))
        [("watch".data), ("d".data), ("a.mp3".data)]).1 = false ∧
    Action.moveUnknown [("watch".data), ("d".data), ("a.mp3".data)]
        (move_to_unknown_dest [("watch".data), ("d".data), ("a.mp3".data)]) ∈
      (handleOne
        (Env.mk (fun _ => true)
          (fun _ => some (AudioTags.mk (some [("A".data)]) (some [("B".data)])
            (some [("T".data)]) (some [("0/10".data)]) (some [("1999".data)])))
          (fun _ => false) (fun _ => false) (fun _ => false) (fun _ _ => true))
        false (DirState.mk [] [] []) [("watch".data), ("d".data), ("a.mp3".data)]).2 :=
  C10_falsy_invalid _ false _ _
    (AudioTags.mk (some [("A".data)]) (some [("B".data)]) (some [("T".data)])
      (some [("0/10".data)]) (some [("1999".data)]))
    ("A".data) ("B".data) ("T".data) ("1999".data) 0
    rfl rfl rfl rfl (by decide) rfl (Or.inl rfl) rfl

/-- C3 (amended): cover-art enrichment runs before validation, so a file
that fails validation can reach the unknown tree with newly embedded cover
art (see the counterexample), but lyrics embedding runs only after the
validation gate: every lyricsEmbed action in a pass belongs to a file whose
record resolved to a sorted destination. -/
theorem C3_lyrics_only_after_validation (env : Env) (cf : Bool) :
    ∀ (snapshot : List (List PyStr)) (arrs : List (List (List PyStr))) (st : DirState)
      (p : List PyStr),
      Action.lyricsEmbed p ∈ (passLoop env cf snapshot arrs st).2 →
      ∃ a, env.tags p = some a ∧ (sorted_dest a p).isSome = true := by
  intro snapshot
  induction snapshot with
  | nil =>
    intro arrs st p h
    simp [passLoop] at h
  | cons q rest ih =>
    intro arrs st p h
    simp only [passLoop, List.mem_append] at h
    rcases h with h | h
    · by_cases hex : env.fileExists q = true
      · simp only [handleOne, hex, if_true] at h
        rcases htag : env.tags q with _ | a
        · have hpm : process_music_file env q = (false, []) := by
            simp only [process_music_file, htag]
          rw [hpm] at h
          split_ifs at h with hc hc2 <;> simp_all
        · rcases hdest : sorted_dest a q with _ | dest
          · have hpm : process_music_file env q = (false, []) := by
              simp only [process_music_file, htag, hdest]
            rw [hpm] at h
            split_ifs at h with hc hc2 <;> simp_all
          · have hpm : process_music_file env q =
                (true, (if env.lrcExists q then [Action.lyricsEmbed q] else []) ++
                  [Action.moveSorted q dest]) := by
              simp only [process_music_file, htag, hdest]
            rw [hpm] at h
            split_ifs at h with hc <;> simp_all
      · simp only [handleOne] at h
        rw [if_neg hex] at h
        simp at h
    · exact ih arrs.tail _ p h

/-- C3 counterexample: a file missing the album tag, in a directory where
cover art was found, has the cover embedded (a content change) before
validation runs, and is then moved to the unknown tree: it does not arrive
unchanged, contradicting enrichment-only-after-validation. -/
theorem C3_counterexample :
    (process_music_file
        (Env.mk (fun _ => true)
          (fun _ => some (AudioTags.mk (some [("A".data)]) none (some [("T".data)])
            (some [("1".data)]) (some [("1999".data)])))
          (fun _ => false) (fun _ => false) (fun _ => true) (fun _ _ => true))
        [("watch".data), ("d".data), ("a.mp3".data)]).1 = false ∧
    (process_directory
        (Env.mk (fun _ => true)
          (fun _ => some (AudioTags.mk (some [("A".data)]) none (some [("T".data)])
            (some [("1".data)]) (some [("1999".data)])))
          (fun _ => false) (fun _ => false) (fun _ => true) (fun _ _ => true))
        true [("watch".data), ("d".data)]
        (DirState.mk [[("watch".data), ("d".data), ("a.mp3".data)]] [] []) [] []).2 =
      [Action.coverEmbed [("watch".data), ("d".data), ("a.mp3".data)],
        Action.moveUnknown [("watch".data), ("d".data), ("a.mp3".data)]
          (move_to_unknown_dest [("watch".data), ("d".data), ("a.mp3".data)]),
        Action.reconcile [("watch".data), ("d".data)]] := by
  decide

/-- Witness instantiating the C1 template theorem on the tags of the spec's
scenario 1 (artist Foo/Bar!, album Best, title Song, track 3/10, date
1999-05-01). -/
theorem C1_sorted_dest_template_witness :
    sorted_dest
        (AudioTags.mk (some [("Foo/Bar!".data)]) (some [("Best".data)])
          (some [("Song".data)]) (some [("3/10".data)]) (some [("1999-05-01".data)]))
        [("watch".data), ("d".data), ("track1.mp3".data)] =
      some (resolve_spec ("Foo/Bar!".data) ("Best".data) ("Song".data) 3
        ((("1999-05-01".data) : PyStr).take 4)
        ((splitextExt (([("watch".data), ("d".data), ("track1.mp3".data)] :
          List PyStr).getLastD [])).drop 1)) :=
  C1_sorted_dest_template _ _ _ _ _ _ _ rfl rfl rfl (by decide) rfl (by decide) (by decide)

/-- Witness for the C3 lyrics gating: a valid file with a sidecar lyrics
file gets a lyricsEmbed action, and its record indeed resolves. -/
theorem C3_lyrics_only_after_validation_witness :
    ∃ a, (Env.mk (fun _ => true)
        (fun _ => some (AudioTags.mk (some [("A".data)]) (some [("B".data)])
          (some [("T".data)]) (some [("1".data)]) (some [("1999".data)])))
        (fun _ => true) (fun _ => true) (fun _ => false) (fun _ _ => true)).tags
          [("watch".data), ("d".data), ("a.mp3".data)] = some a ∧
      (sorted_dest a [("watch".data), ("d".data), ("a.mp3".data)]).isSome = true :=
  C3_lyrics_only_after_validation _ false
    [[("watch".data), ("d".data), ("a.mp3".data)]] [] (DirState.mk [] [] [])
    [("watch".data), ("d".data), ("a.mp3".data)] (by decide)

/-! Lemmas for the snapshot isolation of the pass loop. -/

theorem mem_foldl_insert :
    ∀ (ps : List (List PyStr)) (l : List (List PyStr)) (p : List PyStr), p ∈ l ∨ p ∈ ps →
      p ∈ ps.foldl (fun acc x => acc.insert x) l := by
  intro ps
  induction ps with
  | nil =>
    intro l p h
    rcases h with h | h
    · exact h
    · cases h
  | cons x xs ih =>
    intro l p h
    simp only [List.foldl_cons]
    apply ih
    rcases h with h | h
    · exact Or.inl (List.mem_insert_iff.mpr (Or.inr h))
    · rcases List.mem_cons.mp h with h | h
      · exact Or.inl (List.mem_insert_iff.mpr (Or.inl h))
      · exact Or.inr h

theorem mem_applyArrivals (st : DirState) (ps : List (List PyStr)) (p : List PyStr)
    (h : p ∈ st.pending ∨ p ∈ ps) : p ∈ (applyArrivals st ps).pending := by
  simp only [applyArrivals]
  exact mem_foldl_insert ps st.pending p h

theorem process_music_file_actions_path (env : Env) (fp : List PyStr) :
    ∀ a ∈ (process_music_file env fp).2, Action.path a = fp := by
  intro a ha
  rcases htag : env.tags fp with _ | t
  · simp only [process_music_file, htag] at ha
    simp at ha
  · rcases hdest : sorted_dest t fp with _ | d
    · simp only [process_music_file, htag, hdest] at ha
      simp at ha
    · simp only [process_music_file, htag, hdest] at ha
      simp only [List.mem_append] at ha
      rcases ha with ha | ha
      · split_ifs at ha <;> simp_all [Action.path]
      · simp_all [Action.path]

theorem handleOne_actions_path (env : Env) (cf : Bool) (st : DirState) (fp : List PyStr) :
    ∀ a ∈ (handleOne env cf st fp).2, Action.path a = fp := by
  intro a ha
  simp only [handleOne] at ha
  by_cases hex : env.fileExists fp = true
  · rw [if_pos hex] at ha
    by_cases hpm : (process_music_file env fp).1 = true
    · rw [if_pos hpm] at ha
      simp only [List.mem_append] at ha
      rcases ha with ha | ha
      · split_ifs at ha with hc
        · simp only [List.mem_singleton] at ha
          simp [ha, Action.path]
        · simp at ha
      · exact process_music_file_actions_path env fp a ha
    · rw [if_neg hpm] at ha
      simp only [List.mem_append, List.mem_singleton] at ha
      rcases ha with (ha | ha) | ha
      · split_ifs at ha with hc
        · simp only [List.mem_singleton] at ha
          simp [ha, Action.path]
        · simp at ha
      · exact process_music_file_actions_path env fp a ha
      · simp [ha, Action.path]
  · rw [if_neg hex] at ha
    simp at ha

theorem handleOne_pending (env : Env) (cf : Bool) (st : DirState) (fp : List PyStr) :
    (handleOne env cf st fp).1.pending = st.pending.erase fp := by
  simp only [handleOne]
  split_ifs <;> rfl

theorem passLoop_actions_path (env : Env) (cf : Bool) :
    ∀ (snapshot : List (List PyStr)) (arrs : List (List (List PyStr))) (st : DirState)
      (a : Action), a ∈ (passLoop env cf snapshot arrs st).2 → Action.path a ∈ snapshot := by
  intro snapshot
  induction snapshot with
  | nil =>
    intro arrs st a h
    simp [passLoop] at h
  | cons q rest ih =>
    intro arrs st a h
    simp only [passLoop, List.mem_append] at h
    rcases h with h | h
    · rw [handleOne_actions_path env cf _ q a h]
      exact List.mem_cons_self q rest
    · exact List.mem_cons_of_mem _ (ih arrs.tail _ a h)

theorem passLoop_pending_mono (env : Env) (cf : Bool) :
    ∀ (snapshot : List (List PyStr)) (arrs : List (List (List PyStr))) (st : DirState)
      (p : List PyStr), p ∉ snapshot → p ∈ st.pending →
      p ∈ (passLoop env cf snapshot arrs st).1.pending := by
  intro snapshot
  induction snapshot with
  | nil =>
    intro arrs st p _ hp
    simpa [passLoop] using hp
  | cons q rest ih =>
    intro arrs st p hp hmem
    simp only [passLoop]
    apply ih
    · exact fun hh => hp (List.mem_cons_of_mem _ hh)
    · rw [handleOne_pending]
      rw [List.mem_erase_of_ne (fun hh => hp (by rw [hh]; exact List.mem_cons_self q rest))]
      exact mem_applyArrivals _ _ _ (Or.inl hmem)

theorem passLoop_arrival_pending (env : Env) (cf : Bool) :
    ∀ (snapshot : List (List PyStr)) (arrs : List (List (List PyStr))) (st : DirState)
      (p : List PyStr), p ∉ snapshot →
      p ∈ (List.take snapshot.length arrs).join →
      p ∈ (passLoop env cf snapshot arrs st).1.pending := by
  intro snapshot
  induction snapshot with
  | nil =>
    intro arrs st p _ h
    simp at h
  | cons q rest ih =>
    intro arrs st p hp harr
    cases arrs with
    | nil => simp at harr
    | cons b brest =>
      simp only [List.length_cons, List.take_succ_cons, List.join_cons,
        List.mem_append] at harr
      simp only [passLoop]
      rcases harr with h | h
      · apply passLoop_pending_mono
        · exact fun hh => hp (List.mem_cons_of_mem _ hh)
        · rw [handleOne_pending]
          rw [List.mem_erase_of_ne (fun hh => hp (by rw [hh]; exact List.mem_cons_self q rest))]
          exact mem_applyArrivals _ _ _ (Or.inr (by simpa using h))
      · apply ih
        · exact fun hh => hp (List.mem_cons_of_mem _ hh)
        · simpa using h

/-- C5: the batch pipeline operates on the snapshot of pendingFiles taken
at the start of the pass: a path not in the snapshot that is delivered into
pendingFiles while the pass runs is touched by no action of the batch
(neither enriched, extracted nor relocated), is still in pendingFiles when
the pass ends, and the directory state then survives into the next
readiness cycle. -/
theorem C5_snapshot_isolation (env : Env) (cf : Bool) (dir : List PyStr) (st : DirState)
    (arrs : List (List (List PyStr))) (finalArr : List (List PyStr)) (p : List PyStr)
    (hp : p ∉ st.pending)
    (harr : p ∈ (List.take st.pending.length arrs).join ∨ p ∈ finalArr) :
    (∀ a ∈ (process_directory env cf dir st arrs finalArr).2, Action.path a ≠ p) ∧
    (∃ st2, (process_directory env cf dir st arrs finalArr).1 = some st2 ∧
      p ∈ st2.pending) := by
  have hpend : p ∈ (applyArrivals (passLoop env cf st.pending arrs st).1 finalArr).pending := by
    rcases harr with h | h
    · exact mem_applyArrivals _ _ _
        (Or.inl (passLoop_arrival_pending env cf st.pending arrs st p hp h))
    · exact mem_applyArrivals _ _ _ (Or.inr h)
  have hne : (applyArrivals (passLoop env cf st.pending arrs st).1 finalArr).pending ≠ [] :=
    List.ne_nil_of_mem hpend
  constructor
  · intro a ha hh
    have heq : (process_directory env cf dir st arrs finalArr).2 =
        (passLoop env cf st.pending arrs st).2 := by
      simp only [process_directory]
      rw [if_neg hne]
    rw [heq] at ha
    apply hp
    rw [← hh]
    exact passLoop_actions_path env cf st.pending arrs st a ha
  · refine ⟨_, ?_, hpend⟩
    simp only [process_directory]
    rw [if_neg hne]

/-- Witness for C5: a file arriving mid-pass is untouched and pending. -/
theorem C5_snapshot_isolation_witness :
    (∀ a ∈ (process_directory
        (Env.mk (fun _ => true) (fun _ => none) (fun _ => false) (fun _ => false)
          (fun _ => false) (fun _ _ => true))
        false [("watch".data), ("d".data)]
        (DirState.mk [[("watch".data), ("d".data), ("a.mp3".data)]] [] [])
        [[[("watch".data), ("d".data), ("q.mp3".data)]]] []).2,
      Action.path a ≠ [("watch".data), ("d".data), ("q.mp3".data)]) ∧
    (∃ st2, (process_directory
        (Env.mk (fun _ => true) (fun _ => none) (fun _ => false) (fun _ => false)
          (fun _ => false) (fun _ _ => true))
        false [("watch".data), ("d".data)]
        (DirState.mk [[("watch".data), ("d".data), ("a.mp3".data)]] [] [])
        [[[("watch".data), ("d".data), ("q.mp3".data)]]] []).1 = some st2 ∧
      [("watch".data), ("d".data), ("q.mp3".data)] ∈ st2.pending) :=
  C5_snapshot_isolation _ false _ _ _ _ _ (by decide) (Or.inl (by decide))

/-! The at-most-one-set invariant of the tracker (C4). -/

/-- Pairwise disjointness of a directory's three sets, together with the
duplicate-freedom of their list representations. -/
def DirStateInv (st : DirState) : Prop :=
  st.pending.Nodup ∧ st.processed.Nodup ∧ st.failed.Nodup ∧
  (∀ p, p ∈ st.pending → p ∉ st.processed) ∧
  (∀ p, p ∈ st.pending → p ∉ st.failed) ∧
  (∀ p, p ∈ st.processed → p ∉ st.failed)

theorem nodup_insert_list {l : List (List PyStr)} {a : List PyStr} (h : l.Nodup) :
    (l.insert a).Nodup := by
  by_cases hm : a ∈ l
  · rw [List.insert_of_mem hm]
    exact h
  · rw [List.insert_of_not_mem hm]
    exact List.nodup_cons.mpr ⟨hm, h⟩

theorem mem_insert_elim {l : List (List PyStr)} {a b : List PyStr}
    (h : b ∈ l.insert a) : b = a ∨ b ∈ l :=
  List.mem_insert_iff.mp h

theorem applyArrivals_inv :
    ∀ (ps : List (List PyStr)) (st : DirState),
      DirStateInv st →
      (∀ q ∈ ps, q ∉ st.processed ∧ q ∉ st.failed) →
      DirStateInv (applyArrivals st ps) ∧
      (applyArrivals st ps).processed = st.processed ∧
      (applyArrivals st ps).failed = st.failed := by
  intro ps
  induction ps with
  | nil =>
    intro st hinv _
    exact ⟨hinv, rfl, rfl⟩
  | cons x xs ih =>
    intro st hinv hfresh
    obtain ⟨h1, h2, h3, h4, h5, h6⟩ := hinv
    have hstep : applyArrivals st (x :: xs) =
        applyArrivals { st with pending := st.pending.insert x } xs := by
      simp [applyArrivals]
    rw [hstep]
    apply ih
    · refine ⟨nodup_insert_list h1, h2, h3, ?_, ?_, h6⟩
      · intro p hp
        rcases mem_insert_elim hp with h | h
        · subst h
          exact (hfresh p (List.mem_cons_self _ _)).1
        · exact h4 p h
      · intro p hp
        rcases mem_insert_elim hp with h | h
        · subst h
          exact (hfresh p (List.mem_cons_self _ _)).2
        · exact h5 p h
    · intro q hq
      exact hfresh q (List.mem_cons_of_mem _ hq)

theorem handleOne_state_cases (env : Env) (cf : Bool) (st : DirState) (fp : List PyStr) :
    (handleOne env cf st fp).1 = DirState.mk (st.pending.erase fp) st.processed st.failed ∨
    (handleOne env cf st fp).1 =
      DirState.mk (st.pending.erase fp) (st.processed.insert fp) st.failed ∨
    (handleOne env cf st fp).1 =
      DirState.mk (st.pending.erase fp) st.processed (st.failed.insert fp) := by
  simp only [handleOne]
  by_cases hex : env.fileExists fp = true
  · rw [if_pos hex]
    by_cases hpm : (process_music_file env fp).1 = true
    · rw [if_pos hpm]
      exact Or.inr (Or.inl rfl)
    · rw [if_neg hpm]
      exact Or.inr (Or.inr rfl)
  · rw [if_neg hex]
    exact Or.inl rfl

theorem handleOne_inv (env : Env) (cf : Bool) (st : DirState) (fp : List PyStr)
    (hinv : DirStateInv st) (hfp : fp ∈ st.pending) :
    DirStateInv (handleOne env cf st fp).1 := by
  obtain ⟨h1, h2, h3, h4, h5, h6⟩ := hinv
  rcases handleOne_state_cases env cf st fp with h | h | h <;> rw [h]
  · exact ⟨(List.erase_sublist fp st.pending).nodup h1, h2, h3,
      fun p hp => h4 p (List.mem_of_mem_erase hp),
      fun p hp => h5 p (List.mem_of_mem_erase hp), h6⟩
  · refine ⟨(List.erase_sublist fp st.pending).nodup h1, nodup_insert_list h2, h3,
      ?_, ?_, ?_⟩
    · intro p hp hmem
      rcases mem_insert_elim hmem with hm | hm
      · subst hm
        exact h1.not_mem_erase hp
      · exact h4 p (List.mem_of_mem_erase hp) hm
    · intro p hp
      exact h5 p (List.mem_of_mem_erase hp)
    · intro p hp
      rcases mem_insert_elim hp with hm | hm
      · subst hm
        exact h5 p hfp
      · exact h6 p hm
  · refine ⟨(List.erase_sublist fp st.pending).nodup h1, h2, nodup_insert_list h3,
      ?_, ?_, ?_⟩
    · intro p hp
      exact h4 p (List.mem_of_mem_erase hp)
    · intro p hp hmem
      rcases mem_insert_elim hmem with hm | hm
      · subst hm
        exact h1.not_mem_erase hp
      · exact h5 p (List.mem_of_mem_erase hp) hm
    · intro p hp hmem
      rcases mem_insert_elim hmem with hm | hm
      · subst hm
        exact h4 p hfp hp
      · exact h6 p hp hm

theorem handleOne_processed_sub (env : Env) (cf : Bool) (st : DirState)
    (fp p : List PyStr) (h : p ∈ (handleOne env cf st fp).1.processed) :
    p ∈ st.processed ∨ p = fp := by
  rcases handleOne_state_cases env cf st fp with hc | hc | hc <;> rw [hc] at h
  · exact Or.inl h
  · rcases mem_insert_elim h with hm | hm
    · exact Or.inr hm
    · exact Or.inl hm
  · exact Or.inl h

theorem handleOne_failed_sub (env : Env) (cf : Bool) (st : DirState)
    (fp p : List PyStr) (h : p ∈ (handleOne env cf st fp).1.failed) :
    p ∈ st.failed ∨ p = fp := by
  rcases handleOne_state_cases env cf st fp with hc | hc | hc <;> rw [hc] at h
  · exact Or.inl h
  · exact Or.inl h
  · rcases mem_insert_elim h with hm | hm
    · exact Or.inr hm
    · exact Or.inl hm

theorem passLoop_inv (env : Env) (cf : Bool) :
    ∀ (snapshot : List (List PyStr)) (arrs : List (List (List PyStr))) (st : DirState),
      DirStateInv st →
      snapshot.Nodup →
      (∀ q ∈ snapshot, q ∈ st.pending) →
      (∀ b ∈ arrs, ∀ q ∈ b, q ∉ snapshot ∧ q ∉ st.processed ∧ q ∉ st.failed) →
      DirStateInv (passLoop env cf snapshot arrs st).1 ∧
      (∀ p, p ∈ (passLoop env cf snapshot arrs st).1.processed →
        p ∈ st.processed ∨ p ∈ snapshot) ∧
      (∀ p, p ∈ (passLoop env cf snapshot arrs st).1.failed →
        p ∈ st.failed ∨ p ∈ snapshot) := by
  intro snapshot
  induction snapshot with
  | nil =>
    intro arrs st hinv _ _ _
    exact ⟨hinv, fun p hp => Or.inl hp, fun p hp => Or.inl hp⟩
  | cons q rest ih =>
    intro arrs st hinv hnd hsub hfresh
    have hqrest : q ∉ rest := (List.nodup_cons.mp hnd).1
    have hndrest : rest.Nodup := (List.nodup_cons.mp hnd).2
    have hfreshb : ∀ q' ∈ arrs.headD [],
        q' ∉ (q :: rest) ∧ q' ∉ st.processed ∧ q' ∉ st.failed := by
      cases arrs with
      | nil => intro q' h; simp at h
      | cons b brest => intro q' h; exact hfresh b (List.mem_cons_self _ _) q' h
    obtain ⟨hinv1, hproc1, hfail1⟩ :=
      applyArrivals_inv (arrs.headD []) st hinv
        (fun q' hq' => ⟨(hfreshb q' hq').2.1, (hfreshb q' hq').2.2⟩)
    have hq1 : q ∈ (applyArrivals st (arrs.headD [])).pending :=
      mem_applyArrivals _ _ _ (Or.inl (hsub q (List.mem_cons_self _ _)))
    have hinv2 := handleOne_inv env cf _ q hinv1 hq1
    have hsub2 : ∀ r ∈ rest,
        r ∈ (handleOne env cf (applyArrivals st (arrs.headD [])) q).1.pending := by
      intro r hr
      rw [handleOne_pending]
      rw [List.mem_erase_of_ne (fun hh => hqrest (by rw [← hh]; exact hr))]
      exact mem_applyArrivals _ _ _ (Or.inl (hsub r (List.mem_cons_of_mem _ hr)))
    have hproc2 : ∀ p,
        p ∈ (handleOne env cf (applyArrivals st (arrs.headD [])) q).1.processed →
        p ∈ st.processed ∨ p = q := by
      intro p hp
      rcases handleOne_processed_sub env cf _ q p hp with h | h
      · rw [hproc1] at h
        exact Or.inl h
      · exact Or.inr h
    have hfail2 : ∀ p,
        p ∈ (handleOne env cf (applyArrivals st (arrs.headD [])) q).1.failed →
        p ∈ st.failed ∨ p = q := by
      intro p hp
      rcases handleOne_failed_sub env cf _ q p hp with h | h
      · rw [hfail1] at h
        exact Or.inl h
      · exact Or.inr h
    have hfresh2 : ∀ b ∈ arrs.tail, ∀ q' ∈ b,
        q' ∉ rest ∧
        q' ∉ (handleOne env cf (applyArrivals st (arrs.headD [])) q).1.processed ∧
        q' ∉ (handleOne env cf (applyArrivals st (arrs.headD [])) q).1.failed := by
      intro b hb q' hq'
      have hborig : b ∈ arrs := by
        cases arrs with
        | nil => simp at hb
        | cons c crest => exact List.mem_cons_of_mem _ hb
      obtain ⟨hns, hnp, hnf⟩ := hfresh b hborig q' hq'
      have hnq : q' ≠ q := fun hh => hns (by rw [hh]; exact List.mem_cons_self q rest)
      refine ⟨fun hh => hns (List.mem_cons_of_mem _ hh), ?_, ?_⟩
      · intro hh
        rcases hproc2 q' hh with h | h
        · exact hnp h
        · exact hnq h
      · intro hh
        rcases hfail2 q' hh with h | h
        · exact hnf h
        · exact hnq h
    obtain ⟨hinv3, hproc3, hfail3⟩ := ih arrs.tail _ hinv2 hndrest hsub2 hfresh2
    simp only [passLoop]
    refine ⟨hinv3, ?_, ?_⟩
    · intro p hp
      rcases hproc3 p hp with h | h
      · rcases hproc2 p h with h' | h'
        · exact Or.inl h'
        · exact Or.inr (by rw [h']; exact List.mem_cons_self q rest)
      · exact Or.inr (List.mem_cons_of_mem _ h)
    · intro p hp
      rcases hfail3 p hp with h | h
      · rcases hfail2 p h with h' | h'
        · exact Or.inl h'
        · exact Or.inr (by rw [h']; exact List.mem_cons_self q rest)
      · exact Or.inr (List.mem_cons_of_mem _ h)

theorem process_music_file_no_reconcile (env : Env) (fp d : List PyStr) :
    Action.reconcile d ∉ (process_music_file env fp).2 := by
  intro h
  rcases htag : env.tags fp with _ | t
  · simp only [process_music_file, htag] at h
    simp at h
  · rcases hdest : sorted_dest t fp with _ | dd
    · simp only [process_music_file, htag, hdest] at h
      simp at h
    · simp only [process_music_file, htag, hdest] at h
      simp only [List.mem_append] at h
      rcases h with h | h
      · split_ifs at h <;> simp_all
      · simp_all

theorem handleOne_no_reconcile (env : Env) (cf : Bool) (st : DirState)
    (fp d : List PyStr) : Action.reconcile d ∉ (handleOne env cf st fp).2 := by
  intro h
  simp only [handleOne] at h
  by_cases hex : env.fileExists fp = true
  · rw [if_pos hex] at h
    by_cases hpm : (process_music_file env fp).1 = true
    · rw [if_pos hpm] at h
      simp only [List.mem_append] at h
      rcases h with h | h
      · split_ifs at h <;> simp_all
      · exact process_music_file_no_reconcile env fp d h
    · rw [if_neg hpm] at h
      simp only [List.mem_append, List.mem_singleton] at h
      rcases h with (h | h) | h
      · split_ifs at h <;> simp_all
      · exact process_music_file_no_reconcile env fp d h
      · cases h
  · rw [if_neg hex] at h
    simp at h

theorem passLoop_no_reconcile (env : Env) (cf : Bool) :
    ∀ (snapshot : List (List PyStr)) (arrs : List (List (List PyStr))) (st : DirState)
      (d : List PyStr), Action.reconcile d ∉ (passLoop env cf snapshot arrs st).2 := by
  intro snapshot
  induction snapshot with
  | nil =>
    intro arrs st d h
    simp [passLoop] at h
  | cons q rest ih =>
    intro arrs st d h
    simp only [passLoop, List.mem_append] at h
    rcases h with h | h
    · exact handleOne_no_reconcile env cf _ q d h
    · exact ih arrs.tail _ d h

theorem alookup_none_of_not_mem_keys {α : Type} [DecidableEq α] {β : Type} :
    ∀ (l : List (α × β)) (k : α), k ∉ l.map Prod.fst → alookup l k = none := by
  intro l
  induction l with
  | nil => intro k _; rfl
  | cons kv rest ih =>
    intro k hk
    obtain ⟨k2, w⟩ := kv
    simp only [List.map_cons, List.mem_cons] at hk
    push_neg at hk
    simp only [alookup]
    rw [if_neg hk.1]
    exact ih k hk.2

theorem alookup_aerase_self {α : Type} [DecidableEq α] {β : Type} :
    ∀ (l : List (α × β)) (k : α), (l.map Prod.fst).Nodup →
      alookup (aerase l k) k = none := by
  intro l
  induction l with
  | nil => intro k _; rfl
  | cons kv rest ih =>
    intro k hnd
    obtain ⟨k2, w⟩ := kv
    simp only [List.map_cons, List.nodup_cons] at hnd
    by_cases h : k = k2
    · simp only [aerase, h, if_true]
      subst h
      exact alookup_none_of_not_mem_keys rest k hnd.1
    · simp only [aerase, h, if_false]
      simp only [alookup]
      rw [if_neg h]
      exact ih k hnd.2

instance (st : DirState) : Decidable (DirStateInv st) := by
  unfold DirStateInv
  infer_instance

/-- A concrete environment for the lifecycle theorems: every file exists
and carries the complete valid tag record below, cover art is already
embedded, the first open attempt always succeeds. -/
def envValid : Env :=
  Env.mk (fun _ => true)
    (fun _ => some (AudioTags.mk (some [("A".data)]) (some [("B".data)])
      (some [("T".data)]) (some [("1".data)]) (some [("1999".data)])))
    (fun _ => true) (fun _ => false) (fun _ => false) (fun _ _ => true)

/-- C4 counterexample: from an empty tracker, watch/d/a.mp3 is created at
t = 0; the tick at t = 10 processes the directory while watch/d/q.mp3
arrives mid-pass (keeping the state alive); at t = 11 a new file is dropped
at the already-processed path watch/d/a.mp3. That path is then in
pendingFiles and processedFiles of watch/d at once, refuting the
at-most-one-set invariant as stated. -/
theorem C4_counterexample :
    [("watch".data), ("d".data), ("a.mp3".data)] ∈
      ((alookup (runEvs envValid (Tracker.mk [] [])
        [Ev.created false [("watch".data), ("d".data), ("a.mp3".data)] 0,
         Ev.tick [("watch".data), ("d".data)] 10
           [[[("watch".data), ("d".data), ("q.mp3".data)]]] [],
         Ev.created false [("watch".data), ("d".data), ("a.mp3".data)] 11]).1.registry
        [("watch".data), ("d".data)]).getD (DirState.mk [] [] [])).pending ∧
    [("watch".data), ("d".data), ("a.mp3".data)] ∈
      ((alookup (runEvs envValid (Tracker.mk [] [])
        [Ev.created false [("watch".data), ("d".data), ("a.mp3".data)] 0,
         Ev.tick [("watch".data), ("d".data)] 10
           [[[("watch".data), ("d".data), ("q.mp3".data)]]] [],
         Ev.created false [("watch".data), ("d".data), ("a.mp3".data)] 11]).1.registry
        [("watch".data), ("d".data)]).getD (DirState.mk [] [] [])).processed := by
  decide

/-- C4 (amended): pendingFiles, processedFiles and failedFiles stay
pairwise disjoint through a pass provided every arrival delivered while the
pass runs is a fresh path, not in the snapshot nor already processed or
failed (a file re-created at an already-disposed path breaks the invariant,
see the counterexample); and the directory's registry entry is removed
exactly when the live pending set is empty at the end of the pass, the
reconciler running exactly then, as the final action of the pass. -/
theorem C4_invariant_and_lifecycle (env : Env) (cf : Bool) (dir : List PyStr)
    (st : DirState) (arrs : List (List (List PyStr))) (finalArr : List (List PyStr))
    (hinv : DirStateInv st)
    (hfresh : ∀ b ∈ arrs, ∀ q ∈ b, q ∉ st.pending ∧ q ∉ st.processed ∧ q ∉ st.failed)
    (hfinal : ∀ q ∈ finalArr, q ∉ st.pending ∧ q ∉ st.processed ∧ q ∉ st.failed) :
    (∀ st2, (process_directory env cf dir st arrs finalArr).1 = some st2 →
      DirStateInv st2) ∧
    ((process_directory env cf dir st arrs finalArr).1 = none ↔
      (applyArrivals (passLoop env cf st.pending arrs st).1 finalArr).pending = []) ∧
    ((process_directory env cf dir st arrs finalArr).1 = none ↔
      Action.reconcile dir ∈ (process_directory env cf dir st arrs finalArr).2) ∧
    ((process_directory env cf dir st arrs finalArr).1 = none →
      (process_directory env cf dir st arrs finalArr).2.getLast? =
        some (Action.reconcile dir)) ∧
    (∀ (tr : Tracker) (now last : ℤ),
      (tr.registry.map Prod.fst).Nodup →
      alookup tr.registry dir = some st →
      alookup tr.lastTime dir = some last →
      ¬ now - last < 2 →
      st.pending.filter
        (fun q => env.fileExists q && is_file_locked (env.openAttempt q) 60 1) = [] →
      cf = env.coverFound dir →
      (alookup (check_directory_readiness env tr dir now arrs finalArr).1.registry dir =
          none ↔
        (process_directory env cf dir st arrs finalArr).1 = none)) := by
  obtain ⟨hinvL, hprocL, hfailL⟩ :=
    passLoop_inv env cf st.pending arrs st hinv hinv.1 (fun q hq => hq)
      (fun b hb q hq => hfresh b hb q hq)
  obtain ⟨hinvF, hprocF, hfailF⟩ :=
    applyArrivals_inv finalArr (passLoop env cf st.pending arrs st).1 hinvL
      (by
        intro q hq
        obtain ⟨hp1, hp2, hp3⟩ := hfinal q hq
        constructor
        · intro hh
          rcases hprocL q hh with h | h
          · exact hp2 h
          · exact hp1 h
        · intro hh
          rcases hfailL q hh with h | h
          · exact hp3 h
          · exact hp1 h)
  have hnonecase : ∀ hpe : (applyArrivals (passLoop env cf st.pending arrs st).1
      finalArr).pending = [],
      process_directory env cf dir st arrs finalArr =
        (none, (passLoop env cf st.pending arrs st).2 ++ [Action.reconcile dir]) := by
    intro hpe
    simp only [process_directory]
    rw [if_pos hpe]
  have hsomecase : ∀ hpe : ¬ (applyArrivals (passLoop env cf st.pending arrs st).1
      finalArr).pending = [],
      process_directory env cf dir st arrs finalArr =
        (some (applyArrivals (passLoop env cf st.pending arrs st).1 finalArr),
          (passLoop env cf st.pending arrs st).2) := by
    intro hpe
    simp only [process_directory]
    rw [if_neg hpe]
  refine ⟨?_, ?_, ?_, ?_, ?_⟩
  · intro st2 h
    by_cases hpe : (applyArrivals (passLoop env cf st.pending arrs st).1
        finalArr).pending = []
    · rw [hnonecase hpe] at h
      cases h
    · rw [hsomecase hpe] at h
      injection h with h2
      rw [← h2]
      exact hinvF
  · by_cases hpe : (applyArrivals (passLoop env cf st.pending arrs st).1
        finalArr).pending = []
    · rw [hnonecase hpe]
      simp [hpe]
    · rw [hsomecase hpe]
      simp [hpe]
  · by_cases hpe : (applyArrivals (passLoop env cf st.pending arrs st).1
        finalArr).pending = []
    · rw [hnonecase hpe]
      simp
    · rw [hsomecase hpe]
      constructor
      · intro h
        exact absurd h (by simp)
      · intro h
        exact absurd h (passLoop_no_reconcile env cf st.pending arrs st dir)
  · intro h
    by_cases hpe : (applyArrivals (passLoop env cf st.pending arrs st).1
        finalArr).pending = []
    · rw [hnonecase hpe]
      simp
    · rw [hsomecase hpe] at h
      exact absurd h (by simp)
  · intro tr now last hnd hreg hlast hwin hlocked hcf
    simp only [check_directory_readiness, hreg, hlast]
    rw [if_neg hwin]
    rw [if_pos hlocked]
    rw [← hcf]
    cases hres : (process_directory env cf dir st arrs finalArr).1 with
    | none =>
      simp only [hres]
      constructor
      · intro _
        trivial
      · intro _
        exact alookup_aerase_self tr.registry dir hnd
    | some st2 =>
      simp only [hres]
      rw [alookup_aset_self]

/-- Witness for the amended C4 on a concrete pass that keeps the
directory alive: the mid-pass arrival is a fresh path. -/
theorem C4_invariant_and_lifecycle_witness :
    (∀ st2, (process_directory envValid false [("watch".data), ("d".data)]
        (DirState.mk [[("watch".data), ("d".data), ("a.mp3".data)]] [] [])
        [[[("watch".data), ("d".data), ("q.mp3".data)]]] []).1 = some st2 →
      DirStateInv st2) ∧
    ((process_directory envValid false [("watch".data), ("d".data)]
        (DirState.mk [[("watch".data), ("d".data), ("a.mp3".data)]] [] [])
        [[[("watch".data), ("d".data), ("q.mp3".data)]]] []).1 = none ↔
      (applyArrivals (passLoop envValid false
          (DirState.mk [[("watch".data), ("d".data), ("a.mp3".data)]] [] []).pending
          [[[("watch".data), ("d".data), ("q.mp3".data)]]]
          (DirState.mk [[("watch".data), ("d".data), ("a.mp3".data)]] [] [])).1
        []).pending = []) ∧
    ((process_directory envValid false [("watch".data), ("d".data)]
        (DirState.mk [[("watch".data), ("d".data), ("a.mp3".data)]] [] [])
        [[[("watch".data), ("d".data), ("q.mp3".data)]]] []).1 = none ↔
      Action.reconcile [("watch".data), ("d".data)] ∈
        (process_directory envValid false [("watch".data), ("d".data)]
          (DirState.mk [[("watch".data), ("d".data), ("a.mp3".data)]] [] [])
          [[[("watch".data), ("d".data), ("q.mp3".data)]]] []).2) ∧
    ((process_directory envValid false [("watch".data), ("d".data)]
        (DirState.mk [[("watch".data), ("d".data), ("a.mp3".data)]] [] [])
        [[[("watch".data), ("d".data), ("q.mp3".data)]]] []).1 = none →
      (process_directory envValid false [("watch".data), ("d".data)]
        (DirState.mk [[("watch".data), ("d".data), ("a.mp3".data)]] [] [])
        [[[("watch".data), ("d".data), ("q.mp3".data)]]] []).2.getLast? =
          some (Action.reconcile [("watch".data), ("d".data)])) ∧
    (∀ (tr : Tracker) (now last : ℤ),
      (tr.registry.map Prod.fst).Nodup →
      alookup tr.registry [("watch".data), ("d".data)] =
        some (DirState.mk [[("watch".data), ("d".data), ("a.mp3".data)]] [] []) →
      alookup tr.lastTime [("watch".data), ("d".data)] = some last →
      ¬ now - last < 2 →
      (DirState.mk [[("watch".data), ("d".data), ("a.mp3".data)]] [] []).pending.filter
        (fun q => envValid.fileExists q &&
          is_file_locked (envValid.openAttempt q) 60 1) = [] →
      false = envValid.coverFound [("watch".data), ("d".data)] →
      (alookup (check_directory_readiness envValid tr [("watch".data), ("d".data)]
          now [[[("watch".data), ("d".data), ("q.mp3".data)]]] []).1.registry
          [("watch".data), ("d".data)] = none ↔
        (process_directory envValid false [("watch".data), ("d".data)]
          (DirState.mk [[("watch".data), ("d".data), ("a.mp3".data)]] [] [])
          [[[("watch".data), ("d".data), ("q.mp3".data)]]] []).1 = none)) :=
  C4_invariant_and_lifecycle envValid false [("watch".data), ("d".data)]
    (DirState.mk [[("watch".data), ("d".data), ("a.mp3".data)]] [] [])
    [[[("watch".data), ("d".data), ("q.mp3".data)]]] []
    (by decide) (by decide) (by decide)

/-! The unknown-tree destination (C2). -/

/-- A well-formed path segment: nonempty and slash-free. -/
def goodSeg (s : PyStr) : Prop := s ≠ [] ∧ ∀ c ∈ s, c ≠ '/'

instance (s : PyStr) : Decidable (goodSeg s) := by
  unfold goodSeg
  infer_instance

theorem intercalate_cons_cons_slash (s y : PyStr) (ys : List PyStr) :
    List.intercalate ['/'] (s :: y :: ys) =
      s ++ '/' :: List.intercalate ['/'] (y :: ys) := by
  simp [List.intercalate, List.intersperse]

theorem intercalate_singleton_slash (s : PyStr) : List.intercalate ['/'] [s] = s := by
  simp [List.intercalate]

theorem intercalate_ne_nil (y : PyStr) (ys : List PyStr) (hy : y ≠ []) :
    List.intercalate ['/'] (y :: ys) ≠ [] := by
  cases ys with
  | nil =>
    rw [intercalate_singleton_slash]
    exact hy
  | cons z zs =>
    rw [intercalate_cons_cons_slash]
    intro h
    have h2 := List.append_eq_nil.mp h
    exact hy h2.1

theorem intercalate_head_ne_slash :
    ∀ (xs : List PyStr), (∀ s ∈ xs, goodSeg s) → xs ≠ [] →
      (List.intercalate ['/'] xs).head? ≠ some '/' := by
  intro xs hxs hne
  cases xs with
  | nil => exact absurd rfl hne
  | cons s rest =>
    obtain ⟨hs1, hs2⟩ := hxs s (List.mem_cons_self _ _)
    cases hs : s with
    | nil => exact absurd hs hs1
    | cons c cs =>
      have hcne : c ≠ '/' := hs2 c (by rw [hs]; exact List.mem_cons_self _ _)
      cases rest with
      | nil =>
        rw [intercalate_singleton_slash]
        simpa using hcne
      | cons y ys =>
        rw [intercalate_cons_cons_slash]
        simpa using hcne

theorem intercalate_getLast_ne_slash :
    ∀ (xs : List PyStr), (∀ s ∈ xs, goodSeg s) → xs ≠ [] →
      (List.intercalate ['/'] xs).getLast? ≠ some '/' := by
  intro xs
  induction xs with
  | nil => intro _ hne; exact absurd rfl hne
  | cons s rest ih =>
    intro hxs hne
    cases rest with
    | nil =>
      rw [intercalate_singleton_slash]
      exact getLast?_ne_slash_of_all (hxs s (List.mem_cons_self _ _)).2
    | cons y ys =>
      rw [intercalate_cons_cons_slash]
      have hyne : List.intercalate ['/'] (y :: ys) ≠ [] :=
        intercalate_ne_nil y ys (hxs y (List.mem_cons_of_mem _ (List.mem_cons_self _ _))).1
      rw [List.getLast?_append_of_ne_nil _ (by simp)]
      rw [← List.singleton_append]
      rw [List.getLast?_append_of_ne_nil _ hyne]
      exact ih (fun t ht => hxs t (List.mem_cons_of_mem _ ht)) (by simp)

theorem relpathWatch_watch_cons (rest : List PyStr) (hne : rest ≠ []) :
    relpathWatch (("watch".data) :: rest) = List.intercalate ['/'] rest := by
  simp only [relpathWatch]
  have hcond : ((("watch".data) :: rest)).head? = some ("watch".data) := rfl
  rw [if_pos hcond]
  cases rest with
  | nil => exact absurd rfl hne
  | cons z zs => rfl

theorem move_to_unknown_dest_eq (sub : List PyStr) (name : PyStr)
    (hsub : ∀ s ∈ sub, goodSeg s) (hsubne : sub ≠ [])
    (hname : name.head? ≠ some '/') :
    move_to_unknown_dest (("watch".data) :: sub ++ [name]) =
      (("unknown".data) ++ ('/' :: List.intercalate ['/'] sub)) ++ ('/' :: name) := by
  have hdrop : (("watch".data) :: sub ++ [name]).dropLast = ("watch".data) :: sub := by
    rw [show (("watch".data) :: sub ++ [name]) = ((("watch".data) :: sub) ++ [name]) by simp]
    exact List.dropLast_concat
  have hlastd : (("watch".data) :: sub ++ [name]).getLastD [] = name := by
    rw [List.getLastD_eq_getLast?]
    rw [show (("watch".data) :: sub ++ [name]) = ((("watch".data) :: sub) ++ [name]) by simp]
    rw [List.getLast?_concat]
    rfl
  rw [move_to_unknown_dest, hdrop, hlastd, relpathWatch_watch_cons sub hsubne]
  have h1 : pyJoin ("unknown".data) (List.intercalate ['/'] sub) =
      ("unknown".data) ++ ('/' :: List.intercalate ['/'] sub) := by
    apply pyJoin_eq_append
    · exact intercalate_head_ne_slash sub hsub hsubne
    · decide
    · decide
  rw [h1]
  apply pyJoin_eq_append
  · exact hname
  · simp
  · rw [List.getLast?_append_of_ne_nil _ (by simp)]
    rw [← List.singleton_append]
    cases sub with
    | nil => exact absurd rfl hsubne
    | cons y ys =>
      rw [List.getLast?_append_of_ne_nil _
        (intercalate_ne_nil y ys (hsub y (List.mem_cons_self _ _)).1)]
      exact intercalate_getLast_ne_slash (y :: ys) hsub (by simp)

/-- C2: a file under the watch root whose extracted record fails validation
(a required field missing) is moved by the pass to
unknown/<relative source directory>/<original name>, the intermediate
directories being created by os.makedirs before the move; no action of the
pass moves it into the sorted tree, and its destination does not lie under
sorted/. -/
theorem C2_invalid_under_watch_to_unknown (env : Env) (coverFound : Bool)
    (st : DirState) (sub : List PyStr) (name : PyStr) (a : AudioTags)
    (hsub : ∀ s ∈ sub, goodSeg s) (hsubne : sub ≠ [])
    (hname : name.head? ≠ some '/')
    (htags : env.tags (("watch".data) :: sub ++ [name]) = some a)
    (hinvalid : sorted_dest a (("watch".data) :: sub ++ [name]) = none)
    (hex : env.fileExists (("watch".data) :: sub ++ [name]) = true) :
    Action.moveUnknown (("watch".data) :: sub ++ [name])
        ((("unknown".data) ++ ('/' :: List.intercalate ['/'] sub)) ++ ('/' :: name)) ∈
      (handleOne env coverFound st (("watch".data) :: sub ++ [name])).2 ∧
    (∀ d, Action.moveSorted (("watch".data) :: sub ++ [name]) d ∉
      (handleOne env coverFound st (("watch".data) :: sub ++ [name])).2) ∧
    (("sorted/".data).isPrefixOf
        ((("unknown".data) ++ ('/' :: List.intercalate ['/'] sub)) ++ ('/' :: name)) =
      false) := by
  have hpm : process_music_file env (("watch".data) :: sub ++ [name]) = (false, []) := by
    simp only [process_music_file, htags, hinvalid]
  have hdest := move_to_unknown_dest_eq sub name hsub hsubne hname
  refine ⟨?_, ?_, ?_⟩
  · simp only [handleOne, hex, if_true, hpm]
    rw [← hdest]
    simp
  · intro d hmem
    simp only [handleOne, hex, if_true, hpm] at hmem
    split_ifs at hmem <;> simp_all
  · rw [show ("sorted/".data) = 's' :: ("orted/".data) from rfl]
    rw [show ("unknown".data) = 'u' :: ("nknown".data) from rfl]
    simp [List.isPrefixOf]

/-- Witness for C2: a file watch/d/x.mp3 whose record misses the album. -/
theorem C2_invalid_under_watch_to_unknown_witness :
    Action.moveUnknown (("watch".data) :: [("d".data)] ++ [("x.mp3".data)])
        ((("unknown".data) ++ ('/' :: List.intercalate ['/'] [("d".data)])) ++
          ('/' :: ("x.mp3".data))) ∈
      (handleOne
        (Env.mk (fun _ => true)
          (fun _ => some (AudioTags.mk (some [("A".data)]) none (some [("T".data)])
            (some [("1".data)]) (some [("1999".data)])))
          (fun _ => false) (fun _ => false) (fun _ => false) (fun _ _ => true))
        false (DirState.mk [] [] []) (("watch".data) :: [("d".data)] ++ [("x.mp3".data)])).2 ∧
    (∀ d, Action.moveSorted (("watch".data) :: [("d".data)] ++ [("x.mp3".data)]) d ∉
      (handleOne
        (Env.mk (fun _ => true)
          (fun _ => some (AudioTags.mk (some [("A".data)]) none (some [("T".data)])
            (some [("1".data)]) (some [("1999".data)])))
          (fun _ => false) (fun _ => false) (fun _ => false) (fun _ _ => true))
        false (DirState.mk [] [] []) (("watch".data) :: [("d".data)] ++ [("x.mp3".data)])).2) ∧
    (("sorted/".data).isPrefixOf
        ((("unknown".data) ++ ('/' :: List.intercalate ['/'] [("d".data)])) ++
          ('/' :: ("x.mp3".data))) = false) :=
  C2_invalid_under_watch_to_unknown _ false _ [("d".data)] ("x.mp3".data) _
    (by decide) (by decide) (by decide) rfl (by decide) rfl

/-! The residual reconciler (C8): the watch tree as a finite tree. -/

/-! A directory tree: the names of the plain files in a directory and its
named subdirectories. The watch root is the root of the tree; paths are
segment lists relative to it. -/

mutual
inductive FSTree where
  | node (files : List PyStr) (subdirs : FSForest) : FSTree
inductive FSForest where
  | nil : FSForest
  | cons (name : PyStr) (t : FSTree) (rest : FSForest) : FSForest
end

deriving instance DecidableEq for FSTree
deriving instance DecidableEq for FSForest

/-! A file with the given name exists at the given directory path (any
branch of that name). -/

mutual
def FSTree.fileAt : FSTree → List PyStr → PyStr → Bool
  | .node fs _, [], f => fs.contains f
  | .node _ sd, n :: ρ, f => FSForest.fileAtF sd n ρ f
def FSForest.fileAtF : FSForest → PyStr → List PyStr → PyStr → Bool
  | .nil, _, _, _ => false
  | .cons m t rest, n, ρ, f =>
    (decide (n = m) && FSTree.fileAt t ρ f) || FSForest.fileAtF rest n ρ f
end

/-! A directory exists at the given path. -/

mutual
def FSTree.dirExists : FSTree → List PyStr → Bool
  | _, [] => true
  | .node _ sd, n :: ρ => FSForest.dirExistsF sd n ρ
def FSForest.dirExistsF : FSForest → PyStr → List PyStr → Bool
  | .nil, _, _ => false
  | .cons m t rest, n, ρ =>
    (decide (n = m) && FSTree.dirExists t ρ) || FSForest.dirExistsF rest n ρ
end

/-! The subtree at a path, following the first branch of each name (the
lookup the recursive walk performs). -/

mutual
def FSTree.dirAt : FSTree → List PyStr → Option FSTree
  | t, [] => some t
  | .node _ sd, n :: ρ => FSForest.dirAtF sd n ρ
def FSForest.dirAtF : FSForest → PyStr → List PyStr → Option FSTree
  | .nil, _, _ => none
  | .cons m t rest, n, ρ =>
    if n = m then FSTree.dirAt t ρ else FSForest.dirAtF rest n ρ
end

/-! Replace the subtree at a path (no change when the path is absent). -/

mutual
def FSTree.setAt : FSTree → List PyStr → FSTree → FSTree
  | _, [], r => r
  | .node fs sd, n :: ρ, r => .node fs (FSForest.setAtF sd n ρ r)
def FSForest.setAtF : FSForest → PyStr → List PyStr → FSTree → FSForest
  | .nil, _, _, _ => .nil
  | .cons m t rest, n, ρ, r =>
    if n = m then .cons m (FSTree.setAt t ρ r) rest
    else .cons m t (FSForest.setAtF rest n ρ r)
end

/-! Delete the directory at a nonempty path (no change when absent). -/

mutual
def FSTree.delAt : FSTree → List PyStr → FSTree
  | t, [] => t
  | .node fs sd, n :: ρ => .node fs (FSForest.delAtF sd n ρ)
def FSForest.delAtF : FSForest → PyStr → List PyStr → FSForest
  | .nil, _, _ => .nil
  | .cons m t rest, n, ρ =>
    if n = m then
      match ρ with
      | [] => rest
      | _ :: _ => .cons m (FSTree.delAt t ρ) rest
    else .cons m t (FSForest.delAtF rest n ρ)
end

/-! Some file exists somewhere in the subtree. -/

mutual
def FSTree.hasFile : FSTree → Bool
  | .node fs sd => !fs.isEmpty || FSForest.hasFileF sd
def FSForest.hasFileF : FSForest → Bool
  | .nil => false
  | .cons _ t rest => FSTree.hasFile t || FSForest.hasFileF rest
end

/-- The directory has no entries at all (rmdir would succeed). -/
def FSTree.isEmptyNode : FSTree → Bool
  | .node fs sd => fs.isEmpty && (match sd with | .nil => true | .cons _ _ _ => false)

/-! Sibling names never repeat anywhere in the tree (a real directory
tree). -/

mutual
def FSTree.namesNodup : FSTree → Bool
  | .node _ sd => FSForest.namesNodupF sd
def FSForest.namesNodupF : FSForest → Bool
  | .nil => true
  | .cons n t rest =>
    !FSForest.hasName rest n && FSTree.namesNodup t && FSForest.namesNodupF rest
def FSForest.hasName : FSForest → PyStr → Bool
  | .nil, _ => false
  | .cons m _ rest, n => decide (n = m) || FSForest.hasName rest n
end

/-- The image extensions of handle_remaining_files (music_sorter.py line
380). -/
def imageExts : List PyStr := [(".jpg".data), (".jpeg".data), (".png".data)]

/-! Embeds the file-disposition walk of handle_remaining_files
(music_sorter.py line 383-403) over the subtree rooted at pref (relative to
the watch root): media-extension files stay, image-extension files are
deleted, every other file is moved to unknown/<its directory relative to
watch>/<name> (for a file directly in the watch root the path computed by
the code is unknown/./<name>, which normalizes to the same place). Returns
the cleaned subtree and the destinations of the moved files as segment
paths. -/

mutual
def handleTree (pref : List PyStr) : FSTree → FSTree × List (List PyStr)
  | .node fs sd =>
    let kept := fs.filter (fun f => endsWithOne f mediaExts)
    let movedHere := (fs.filter
        (fun f => !endsWithOne f mediaExts && !endsWithOne f imageExts)).map
      (fun f => ("unknown".data) :: (pref ++ [f]))
    let r := handleForest pref sd
    (.node kept r.1, movedHere ++ r.2)
def handleForest (pref : List PyStr) : FSForest → FSForest × List (List PyStr)
  | .nil => (.nil, [])
  | .cons n t rest =>
    let r1 := handleTree (pref ++ [n]) t
    let r2 := handleForest pref rest
    (.cons n r1.1 r2.1, r1.2 ++ r2.2)
end

/-! Embeds the recursive child-pruning of remove_empty_dirs (music_sorter.py
line 352-356 with line 363-364 for each child): prune every child subtree,
then drop the child if it became empty. The re-entrant duplicate passes the
code makes through already-pruned parents are idempotent and are not
repeated in the model. -/

mutual
def pruneTree : FSTree → FSTree
  | .node fs sd => .node fs (pruneForest sd)
def pruneForest : FSForest → FSForest
  | .nil => .nil
  | .cons n t rest =>
    let t2 := pruneTree t
    if FSTree.isEmptyNode t2 then pruneForest rest
    else .cons n t2 (pruneForest rest)
end

/-- Prune the children of one node, keeping the node. -/
def pruneNode : FSTree → FSTree
  | .node fs sd => .node fs (pruneForest sd)

/-- Embeds remove_empty_dirs (music_sorter.py line 347-374) started at the
path π inside the watch root with stop_at the root itself: prune the
children of the node, remove the node if it is now empty and is not the
root, and on removal continue at the parent unless the parent is the root. -/
def remove_empty_dirs : FSTree → List PyStr → FSTree
  | root, [] => pruneNode root
  | root, n :: ρ =>
    match FSTree.dirAt root (n :: ρ) with
    | none => root
    | some d =>
      let d2 := pruneNode d
      if FSTree.isEmptyNode d2 then
        let r2 := FSTree.delAt root (n :: ρ)
        if (n :: ρ).dropLast = [] then r2
        else remove_empty_dirs r2 ((n :: ρ).dropLast)
      else FSTree.setAt root (n :: ρ) d2
termination_by _ π => π.length
decreasing_by
  simp only [List.length_dropLast, List.length_cons]
  omega

/-- Embeds handle_remaining_files (music_sorter.py line 377-411): dispose of
the remaining files of the subtree at π by extension, then prune empty
directories from π upward, never deleting the watch root. -/
def handle_remaining_files (root : FSTree) (π : List PyStr) :
    FSTree × List (List PyStr) :=
  match FSTree.dirAt root π with
  | none => (root, [])
  | some d =>
    let r := handleTree π d
    (remove_empty_dirs (FSTree.setAt root π r.1) π, r.2)

/-! Basic facts about the tree operations. -/

mutual
theorem fileAt_hasFile : ∀ (t : FSTree) (ρ : List PyStr) (f : PyStr),
    FSTree.fileAt t ρ f = true → FSTree.hasFile t = true
  | .node fs sd, [], f => fun h => by
      cases fs with
      | nil => simp [FSTree.fileAt] at h
      | cons a as => simp [FSTree.hasFile]
  | .node fs sd, n :: ρ, f => fun h => by
      have h2 : FSForest.fileAtF sd n ρ f = true := by
        simpa [FSTree.fileAt] using h
      have h3 := fileAtF_hasFileF sd n ρ f h2
      simp [FSTree.hasFile, h3]
theorem fileAtF_hasFileF : ∀ (sd : FSForest) (n : PyStr) (ρ : List PyStr) (f : PyStr),
    FSForest.fileAtF sd n ρ f = true → FSForest.hasFileF sd = true
  | .nil, n, ρ, f => fun h => by simp [FSForest.fileAtF] at h
  | .cons m t rest, n, ρ, f => fun h => by
      simp only [FSForest.fileAtF, Bool.or_eq_true, Bool.and_eq_true] at h
      rcases h with ⟨-, h⟩ | h
      · simp [FSForest.hasFileF, fileAt_hasFile t ρ f h]
      · simp [FSForest.hasFileF, fileAtF_hasFileF rest n ρ f h]
end

mutual
theorem isEmptyNode_pruneTree : ∀ (t : FSTree),
    FSTree.isEmptyNode (pruneTree t) = !FSTree.hasFile t
  | .node fs sd => by
      have h := pruneForest_eq_nil sd
      simp only [pruneTree, FSTree.isEmptyNode, FSTree.hasFile, Bool.not_or, Bool.not_not]
      cases hpf : pruneForest sd with
      | nil =>
        have h2 : FSForest.hasFileF sd = false := h.mp hpf
        simp [h2]
      | cons a b c =>
        have h2 : FSForest.hasFileF sd = true := by
          cases hh : FSForest.hasFileF sd
          · rw [h.mpr hh] at hpf
            cases hpf
          · rfl
        simp [h2]
theorem pruneForest_eq_nil : ∀ (sd : FSForest),
    pruneForest sd = FSForest.nil ↔ FSForest.hasFileF sd = false
  | .nil => by simp [pruneForest, FSForest.hasFileF]
  | .cons m t rest => by
      have ht := isEmptyNode_pruneTree t
      have hr := pruneForest_eq_nil rest
      simp only [pruneForest, FSForest.hasFileF]
      by_cases he : FSTree.isEmptyNode (pruneTree t) = true
      · rw [if_pos he]
        have hnf : FSTree.hasFile t = false := by
          rw [ht] at he
          cases hft : FSTree.hasFile t
          · rfl
          · rw [hft] at he
            cases he
        constructor
        · intro hh
          rw [hnf, hr.mp hh]
          rfl
        · intro hh
          apply hr.mpr
          simp only [Bool.or_eq_false_iff] at hh
          exact hh.2
      · rw [if_neg he]
        have hft : FSTree.hasFile t = true := by
          rw [ht] at he
          cases hfa : FSTree.hasFile t
          · exfalso
            apply he
            rw [hfa]
            rfl
          · rfl
        constructor
        · intro hh
          cases hh
        · intro hh
          rw [hft] at hh
          simp at hh
end

mutual
theorem pruneTree_fileAt : ∀ (t : FSTree) (ρ : List PyStr) (f : PyStr),
    FSTree.fileAt (pruneTree t) ρ f = FSTree.fileAt t ρ f
  | .node fs sd, [], f => by simp [pruneTree, FSTree.fileAt]
  | .node fs sd, n :: ρ, f => by
      simp only [pruneTree, FSTree.fileAt]
      exact pruneForest_fileAtF sd n ρ f
theorem pruneForest_fileAtF : ∀ (sd : FSForest) (n : PyStr) (ρ : List PyStr) (f : PyStr),
    FSForest.fileAtF (pruneForest sd) n ρ f = FSForest.fileAtF sd n ρ f
  | .nil, n, ρ, f => by simp [pruneForest]
  | .cons m t rest, n, ρ, f => by
      simp only [pruneForest]
      by_cases he : FSTree.isEmptyNode (pruneTree t) = true
      · rw [if_pos he]
        have hnf : FSTree.hasFile t = false := by
          rw [isEmptyNode_pruneTree t] at he
          cases hft : FSTree.hasFile t
          · rfl
          · rw [hft] at he
            cases he
        have hft : FSTree.fileAt t ρ f = false := by
          cases hfa : FSTree.fileAt t ρ f
          · rfl
          · rw [fileAt_hasFile t ρ f hfa] at hnf
            cases hnf
        rw [pruneForest_fileAtF rest n ρ f]
        simp [FSForest.fileAtF, hft]
      · rw [if_neg he]
        simp only [FSForest.fileAtF]
        rw [pruneTree_fileAt t ρ f, pruneForest_fileAtF rest n ρ f]
end

theorem pruneNode_fileAt (t : FSTree) (ρ : List PyStr) (f : PyStr) :
    FSTree.fileAt (pruneNode t) ρ f = FSTree.fileAt t ρ f := by
  cases t with
  | node fs sd =>
    cases ρ with
    | nil => simp [pruneNode, FSTree.fileAt]
    | cons n ρ2 =>
      simp only [pruneNode, FSTree.fileAt]
      exact pruneForest_fileAtF sd n ρ2 f

mutual
theorem fileAt_dirExists : ∀ (t : FSTree) (δ ρ : List PyStr) (f : PyStr),
    FSTree.fileAt t (δ ++ ρ) f = true → FSTree.dirExists t δ = true
  | t, [], ρ, f => fun _ => by
      cases t with
      | node fs sd => simp [FSTree.dirExists]
  | .node fs sd, k :: δ2, ρ, f => fun h => by
      have h2 : FSForest.fileAtF sd k (δ2 ++ ρ) f = true := by
        simpa [FSTree.fileAt] using h
      simp only [FSTree.dirExists]
      exact fileAtF_dirExistsF sd k δ2 ρ f h2
theorem fileAtF_dirExistsF : ∀ (sd : FSForest) (k : PyStr) (δ ρ : List PyStr) (f : PyStr),
    FSForest.fileAtF sd k (δ ++ ρ) f = true → FSForest.dirExistsF sd k δ = true
  | .nil, k, δ, ρ, f => fun h => by simp [FSForest.fileAtF] at h
  | .cons m t rest, k, δ, ρ, f => fun h => by
      simp only [FSForest.fileAtF, Bool.or_eq_true, Bool.and_eq_true] at h
      simp only [FSForest.dirExistsF, Bool.or_eq_true, Bool.and_eq_true]
      rcases h with ⟨hk, h⟩ | h
      · exact Or.inl ⟨hk, fileAt_dirExists t δ ρ f h⟩
      · exact Or.inr (fileAtF_dirExistsF rest k δ ρ f h)
end

theorem hasName_false_fileAtF : ∀ (sd : FSForest) (n : PyStr) (ρ : List PyStr) (f : PyStr),
    FSForest.hasName sd n = false → FSForest.fileAtF sd n ρ f = false
  | .nil, _, _, _ => fun _ => rfl
  | .cons m t rest, n, ρ, f => fun h => by
      simp only [FSForest.hasName, Bool.or_eq_false_iff] at h
      simp [FSForest.fileAtF, h.1, hasName_false_fileAtF rest n ρ f h.2]

mutual
theorem setAt_fileAt : ∀ (root : FSTree) (π : List PyStr) (d t2 : FSTree),
    FSTree.dirAt root π = some d →
    (∀ ρ f, FSTree.fileAt t2 ρ f = FSTree.fileAt d ρ f) →
    ∀ δ f, FSTree.fileAt (FSTree.setAt root π t2) δ f = FSTree.fileAt root δ f
  | root, [], d, t2 => fun hdir heq δ f => by
      have hd : root = d := by
        simpa [FSTree.dirAt] using hdir
      simp only [FSTree.setAt]
      rw [heq δ f, hd]
  | .node fs sd, n :: π2, d, t2 => fun hdir heq δ f => by
      simp only [FSTree.setAt]
      cases δ with
      | nil => simp [FSTree.fileAt]
      | cons k δ2 =>
        simp only [FSTree.fileAt]
        have hdir2 : FSForest.dirAtF sd n π2 = some d := by
          simpa [FSTree.dirAt] using hdir
        exact setAtF_fileAtF sd n π2 d t2 hdir2 heq k δ2 f
theorem setAtF_fileAtF : ∀ (sd : FSForest) (n : PyStr) (π2 : List PyStr) (d t2 : FSTree),
    FSForest.dirAtF sd n π2 = some d →
    (∀ ρ f, FSTree.fileAt t2 ρ f = FSTree.fileAt d ρ f) →
    ∀ k δ2 f, FSForest.fileAtF (FSForest.setAtF sd n π2 t2) k δ2 f =
      FSForest.fileAtF sd k δ2 f
  | .nil, n, π2, d, t2 => fun hdir _ _ _ _ => by simp [FSForest.dirAtF] at hdir
  | .cons m t rest, n, π2, d, t2 => fun hdir heq k δ2 f => by
      by_cases hnm : n = m
      · simp only [FSForest.setAtF, if_pos hnm]
        have hdir2 : FSTree.dirAt t π2 = some d := by
          simpa [FSForest.dirAtF, if_pos hnm] using hdir
        simp only [FSForest.fileAtF]
        rw [setAt_fileAt t π2 d t2 hdir2 heq δ2 f]
      · simp only [FSForest.setAtF, if_neg hnm]
        have hdir2 : FSForest.dirAtF rest n π2 = some d := by
          simpa [FSForest.dirAtF, if_neg hnm] using hdir
        simp only [FSForest.fileAtF]
        rw [setAtF_fileAtF rest n π2 d t2 hdir2 heq k δ2 f]
end

mutual
theorem setAt_fileAt_at : ∀ (root : FSTree) (π : List PyStr) (t2 : FSTree),
    FSTree.namesNodup root = true →
    (FSTree.dirAt root π).isSome = true →
    ∀ ρ f, FSTree.fileAt (FSTree.setAt root π t2) (π ++ ρ) f = FSTree.fileAt t2 ρ f
  | root, [], t2 => fun _ _ ρ f => by
      simp only [FSTree.setAt, List.nil_append]
  | .node fs sd, n :: π2, t2 => fun hnd hdir ρ f => by
      simp only [FSTree.setAt, List.cons_append, FSTree.fileAt]
      have hnd2 : FSForest.namesNodupF sd = true := by
        simpa [FSTree.namesNodup] using hnd
      have hdir2 : (FSForest.dirAtF sd n π2).isSome = true := by
        simpa [FSTree.dirAt] using hdir
      exact setAtF_fileAtF_at sd n π2 t2 hnd2 hdir2 ρ f
theorem setAtF_fileAtF_at : ∀ (sd : FSForest) (n : PyStr) (π2 : List PyStr) (t2 : FSTree),
    FSForest.namesNodupF sd = true →
    (FSForest.dirAtF sd n π2).isSome = true →
    ∀ ρ f, FSForest.fileAtF (FSForest.setAtF sd n π2 t2) n (π2 ++ ρ) f =
      FSTree.fileAt t2 ρ f
  | .nil, n, π2, t2 => fun _ hdir _ _ => by simp [FSForest.dirAtF] at hdir
  | .cons m t rest, n, π2, t2 => fun hnd hdir ρ f => by
      simp only [FSForest.namesNodupF, Bool.and_eq_true] at hnd
      by_cases hnm : n = m
      · simp only [FSForest.setAtF, if_pos hnm, FSForest.fileAtF]
        have hrest : FSForest.fileAtF rest n (π2 ++ ρ) f = false := by
          apply hasName_false_fileAtF
          rw [hnm]
          simpa using hnd.1.1
        rw [hrest]
        have hdt : (FSTree.dirAt t π2).isSome = true := by
          simpa [FSForest.dirAtF, if_pos hnm] using hdir
        rw [setAt_fileAt_at t π2 t2 hnd.1.2 hdt ρ f]
        simp [hnm]
      · simp only [FSForest.setAtF, if_neg hnm, FSForest.fileAtF]
        have hd : decide (n = m) = false := by simpa using hnm
        rw [hd]
        simp only [Bool.false_and, Bool.false_or]
        have hdir2 : (FSForest.dirAtF rest n π2).isSome = true := by
          simpa [FSForest.dirAtF, if_neg hnm] using hdir
        exact setAtF_fileAtF_at rest n π2 t2 hnd.2 hdir2 ρ f
end

mutual
theorem delAt_fileAt : ∀ (root : FSTree) (n0 : PyStr) (π2 : List PyStr) (d : FSTree),
    FSTree.dirAt root (n0 :: π2) = some d →
    FSTree.hasFile d = false →
    ∀ δ f, FSTree.fileAt (FSTree.delAt root (n0 :: π2)) δ f = FSTree.fileAt root δ f
  | .node fs sd, n0, π2, d => fun hdir hnf δ f => by
      simp only [FSTree.delAt]
      cases δ with
      | nil => simp [FSTree.fileAt]
      | cons k δ2 =>
        simp only [FSTree.fileAt]
        have hdir2 : FSForest.dirAtF sd n0 π2 = some d := by
          simpa [FSTree.dirAt] using hdir
        exact delAtF_fileAtF sd n0 π2 d hdir2 hnf k δ2 f
theorem delAtF_fileAtF : ∀ (sd : FSForest) (n0 : PyStr) (π2 : List PyStr) (d : FSTree),
    FSForest.dirAtF sd n0 π2 = some d →
    FSTree.hasFile d = false →
    ∀ k δ2 f, FSForest.fileAtF (FSForest.delAtF sd n0 π2) k δ2 f =
      FSForest.fileAtF sd k δ2 f
  | .nil, n0, π2, d => fun hdir _ _ _ _ => by simp [FSForest.dirAtF] at hdir
  | .cons m t rest, n0, π2, d => fun hdir hnf k δ2 f => by
      by_cases hnm : n0 = m
      · cases π2 with
        | nil =>
          have hd : t = d := by
            have h2 := hdir
            simp only [FSForest.dirAtF, if_pos hnm, FSTree.dirAt,
              Option.some.injEq] at h2
            exact h2
          simp only [FSForest.delAtF, if_pos hnm]
          simp only [FSForest.fileAtF]
          have hft : FSTree.fileAt t δ2 f = false := by
            cases hfa : FSTree.fileAt t δ2 f
            · rfl
            · rw [hd] at hfa
              rw [fileAt_hasFile d δ2 f hfa] at hnf
              cases hnf
          rw [hft]
          simp
        | cons p ps =>
          simp only [FSForest.delAtF, if_pos hnm]
          simp only [FSForest.fileAtF]
          have hdir2 : FSTree.dirAt t (p :: ps) = some d := by
            simpa [FSForest.dirAtF, if_pos hnm] using hdir
          rw [delAt_fileAt t p ps d hdir2 hnf δ2 f]
      · simp only [FSForest.delAtF, if_neg hnm]
        simp only [FSForest.fileAtF]
        have hdir2 : FSForest.dirAtF rest n0 π2 = some d := by
          simpa [FSForest.dirAtF, if_neg hnm] using hdir
        rw [delAtF_fileAtF rest n0 π2 d hdir2 hnf k δ2 f]
end

theorem isEmptyNode_pruneNode_hasFile (d : FSTree)
    (he : FSTree.isEmptyNode (pruneNode d) = true) : FSTree.hasFile d = false := by
  cases d with
  | node dfs dsd =>
    simp only [pruneNode, FSTree.isEmptyNode, Bool.and_eq_true] at he
    have h2 : pruneForest dsd = FSForest.nil := by
      rcases hpf : pruneForest dsd with _ | ⟨a, b, c⟩
      · rfl
      · rw [hpf] at he
        simp at he
    have h3 : FSForest.hasFileF dsd = false := (pruneForest_eq_nil dsd).mp h2
    simp [FSTree.hasFile, h3, he.1]

theorem remove_empty_dirs_fileAt_aux : ∀ (k : Nat) (π : List PyStr), π.length ≤ k →
    ∀ (root : FSTree) (δ : List PyStr) (f : PyStr),
      FSTree.fileAt (remove_empty_dirs root π) δ f = FSTree.fileAt root δ f := by
  intro k
  induction k with
  | zero =>
    intro π hlen root δ f
    have hπ : π = [] := List.length_eq_zero.mp (Nat.le_zero.mp hlen)
    subst hπ
    simp only [remove_empty_dirs]
    exact pruneNode_fileAt root δ f
  | succ kk ih =>
    intro π hlen root δ f
    cases π with
    | nil =>
      simp only [remove_empty_dirs]
      exact pruneNode_fileAt root δ f
    | cons n ρπ =>
      simp only [remove_empty_dirs]
      cases hdir : FSTree.dirAt root (n :: ρπ) with
      | none => rfl
      | some d =>
        dsimp only
        by_cases he : FSTree.isEmptyNode (pruneNode d) = true
        · rw [if_pos he]
          have hnf : FSTree.hasFile d = false := isEmptyNode_pruneNode_hasFile d he
          have hdel := delAt_fileAt root n ρπ d hdir hnf
          by_cases hdl : (n :: ρπ).dropLast = []
          · rw [if_pos hdl]
            exact hdel δ f
          · rw [if_neg hdl]
            have hlen2 : ((n :: ρπ).dropLast).length ≤ kk := by
              simp only [List.length_dropLast, List.length_cons] at hlen ⊢
              omega
            rw [ih ((n :: ρπ).dropLast) hlen2 _ δ f]
            exact hdel δ f
        · rw [if_neg he]
          exact setAt_fileAt root (n :: ρπ) d (pruneNode d) hdir
            (fun ρ2 f2 => pruneNode_fileAt d ρ2 f2) δ f

theorem remove_empty_dirs_fileAt (root : FSTree) (π : List PyStr) (δ : List PyStr)
    (f : PyStr) :
    FSTree.fileAt (remove_empty_dirs root π) δ f = FSTree.fileAt root δ f :=
  remove_empty_dirs_fileAt_aux π.length π (Nat.le_refl _) root δ f

theorem contains_filter_eq (p : PyStr → Bool) : ∀ (fs : List PyStr) (f : PyStr),
    (fs.filter p).contains f = (fs.contains f && p f)
  | [], f => by simp
  | a :: rest, f => by
      by_cases hfa : f = a
      · subst hfa
        cases hp : p f
        · simp [List.filter, hp, contains_filter_eq p rest f]
        · simp [List.filter, hp]
      · have hbe : (f == a) = false := by simpa using hfa
        cases hp : p a
        · simp [List.filter, hp, List.contains_cons, hbe, hfa,
            contains_filter_eq p rest f]
        · simp [List.filter, hp, List.contains_cons, hbe, hfa,
            contains_filter_eq p rest f]

theorem append_singleton_inj {α : Type} (x y : List α) (a b : α)
    (h : x ++ [a] = y ++ [b]) : x = y ∧ a = b := by
  have h2 := congrArg List.reverse h
  simp only [List.reverse_append, List.reverse_cons, List.reverse_nil,
    List.nil_append, List.singleton_append, List.cons.injEq] at h2
  exact ⟨List.reverse_injective h2.2, h2.1⟩

mutual
theorem handleTree_fileAt : ∀ (pref : List PyStr) (t : FSTree) (ρ : List PyStr)
    (f : PyStr),
    FSTree.fileAt (handleTree pref t).1 ρ f =
      (FSTree.fileAt t ρ f && endsWithOne f mediaExts)
  | pref, .node fs sd, [], f => by
      simp only [handleTree, FSTree.fileAt]
      exact contains_filter_eq _ fs f
  | pref, .node fs sd, n :: ρ, f => by
      simp only [handleTree, FSTree.fileAt]
      exact handleForest_fileAtF pref sd n ρ f
theorem handleForest_fileAtF : ∀ (pref : List PyStr) (sd : FSForest) (n : PyStr)
    (ρ : List PyStr) (f : PyStr),
    FSForest.fileAtF (handleForest pref sd).1 n ρ f =
      (FSForest.fileAtF sd n ρ f && endsWithOne f mediaExts)
  | pref, .nil, n, ρ, f => by simp [handleForest, FSForest.fileAtF]
  | pref, .cons m t rest, n, ρ, f => by
      simp only [handleForest, FSForest.fileAtF]
      rw [handleTree_fileAt (pref ++ [m]) t ρ f, handleForest_fileAtF pref rest n ρ f]
      cases FSTree.fileAt t ρ f <;> cases FSForest.fileAtF rest n ρ f <;>
        cases endsWithOne f mediaExts <;> cases decide (n = m) <;> rfl
end

mutual
theorem handleTree_moved : ∀ (pref : List PyStr) (t : FSTree) (dest : List PyStr),
    dest ∈ (handleTree pref t).2 ↔
      ∃ ρ f, FSTree.fileAt t ρ f = true ∧ endsWithOne f mediaExts = false ∧
        endsWithOne f imageExts = false ∧
        dest = ("unknown".data) :: (pref ++ ρ ++ [f])
  | pref, .node fs sd, dest => by
      simp only [handleTree, List.mem_append, List.mem_map, List.mem_filter]
      constructor
      · rintro (⟨f, ⟨hf, hprop⟩, rfl⟩ | hrec)
        · simp only [Bool.and_eq_true, Bool.not_eq_true'] at hprop
          refine ⟨[], f, ?_, hprop.1, hprop.2, by simp⟩
          simp only [FSTree.fileAt]
          exact List.elem_eq_true_of_mem hf
        · rcases (handleForest_moved pref sd dest).mp hrec with ⟨n, ρ, f, hf, hm, hi, hdest⟩
          exact ⟨n :: ρ, f, hf, hm, hi, hdest⟩
      · rintro ⟨ρ, f, hf, hm, hi, rfl⟩
        cases ρ with
        | nil =>
          left
          refine ⟨f, ⟨?_, ?_⟩, by simp⟩
          · simp only [FSTree.fileAt] at hf
            exact List.mem_of_elem_eq_true hf
          · simp [hm, hi]
        | cons n ρ2 =>
          right
          exact (handleForest_moved pref sd _).mpr ⟨n, ρ2, f, hf, hm, hi, rfl⟩
theorem handleForest_moved : ∀ (pref : List PyStr) (sd : FSForest)
    (dest : List PyStr),
    dest ∈ (handleForest pref sd).2 ↔
      ∃ n ρ f, FSForest.fileAtF sd n ρ f = true ∧
        endsWithOne f mediaExts = false ∧ endsWithOne f imageExts = false ∧
        dest = ("unknown".data) :: (pref ++ (n :: ρ) ++ [f])
  | pref, .nil, dest => by
      simp [handleForest, FSForest.fileAtF]
  | pref, .cons m t rest, dest => by
      simp only [handleForest, List.mem_append]
      constructor
      · rintro (h1 | h2)
        · rcases (handleTree_moved (pref ++ [m]) t dest).mp h1 with
            ⟨ρ, f, hf, hm, hi, hdest⟩
          refine ⟨m, ρ, f, ?_, hm, hi, ?_⟩
          · simp [FSForest.fileAtF, hf]
          · rw [hdest]
            simp
        · rcases (handleForest_moved pref rest dest).mp h2 with
            ⟨n, ρ, f, hf, hm, hi, hdest⟩
          refine ⟨n, ρ, f, ?_, hm, hi, hdest⟩
          simp [FSForest.fileAtF, hf]
      · rintro ⟨n, ρ, f, hf, hm, hi, rfl⟩
        simp only [FSForest.fileAtF, Bool.or_eq_true, Bool.and_eq_true,
          decide_eq_true_eq] at hf
        rcases hf with ⟨hnm, hft⟩ | hfr
        · left
          refine (handleTree_moved (pref ++ [m]) t _).mpr ⟨ρ, f, hft, hm, hi, ?_⟩
          rw [hnm]
          simp
        · right
          exact (handleForest_moved pref rest _).mpr ⟨n, ρ, f, hfr, hm, hi, rfl⟩
end

theorem pruneNode_eq_pruneTree : ∀ (t : FSTree), pruneNode t = pruneTree t
  | .node _ _ => rfl

theorem hasName_false_dirExistsF : ∀ (sd : FSForest) (n : PyStr) (ρ : List PyStr),
    FSForest.hasName sd n = false → FSForest.dirExistsF sd n ρ = false
  | .nil, _, _ => fun _ => rfl
  | .cons m t rest, n, ρ => fun h => by
      simp only [FSForest.hasName, Bool.or_eq_false_iff] at h
      simp [FSForest.dirExistsF, h.1, hasName_false_dirExistsF rest n ρ h.2]

mutual
theorem hasFile_exists_fileAt : ∀ (t : FSTree), FSTree.hasFile t = true →
    ∃ ρ f, FSTree.fileAt t ρ f = true
  | .node [] sd => fun h => by
      rcases hasFileF_exists_fileAtF sd (by simpa [FSTree.hasFile] using h) with
        ⟨n, ρ, f, hf⟩
      exact ⟨n :: ρ, f, hf⟩
  | .node (a :: fs) sd => fun _ => ⟨[], a, by simp [FSTree.fileAt]⟩
theorem hasFileF_exists_fileAtF : ∀ (sd : FSForest), FSForest.hasFileF sd = true →
    ∃ n ρ f, FSForest.fileAtF sd n ρ f = true
  | .nil => fun h => by simp [FSForest.hasFileF] at h
  | .cons m t rest => fun h => by
      simp only [FSForest.hasFileF, Bool.or_eq_true] at h
      rcases h with h1 | h2
      · rcases hasFile_exists_fileAt t h1 with ⟨ρ, f, hf⟩
        exact ⟨m, ρ, f, by simp [FSForest.fileAtF, hf]⟩
      · rcases hasFileF_exists_fileAtF rest h2 with ⟨n, ρ, f, hf⟩
        exact ⟨n, ρ, f, by simp [FSForest.fileAtF, hf]⟩
end

mutual
theorem pruneTree_dirExists_file : ∀ (t : FSTree) (n : PyStr) (ρ : List PyStr),
    FSTree.dirExists (pruneTree t) (n :: ρ) = true →
    ∃ ρ2 f, FSTree.fileAt (pruneTree t) (n :: (ρ ++ ρ2)) f = true
  | .node fs sd, n, ρ => fun h => by
      simp only [pruneTree, FSTree.dirExists] at h
      rcases pruneForest_dirExistsF_file sd n ρ h with ⟨ρ2, f, hf⟩
      exact ⟨ρ2, f, hf⟩
theorem pruneForest_dirExistsF_file : ∀ (sd : FSForest) (n : PyStr) (ρ : List PyStr),
    FSForest.dirExistsF (pruneForest sd) n ρ = true →
    ∃ ρ2 f, FSForest.fileAtF (pruneForest sd) n (ρ ++ ρ2) f = true
  | .nil, n, ρ => fun h => by simp [pruneForest, FSForest.dirExistsF] at h
  | .cons m t rest, n, ρ => fun h => by
      simp only [pruneForest] at h ⊢
      cases hemp : FSTree.isEmptyNode (pruneTree t) with
      | true =>
        rw [if_pos hemp] at h
        rw [if_pos rfl]
        exact pruneForest_dirExistsF_file rest n ρ h
      | false =>
        rw [if_neg (by simp [hemp])] at h
        rw [if_neg (by simp)]
        simp only [FSForest.dirExistsF, Bool.or_eq_true, Bool.and_eq_true,
          decide_eq_true_eq] at h
        rcases h with ⟨hnm, hde⟩ | hre
        · cases ρ with
          | nil =>
            have hhf : FSTree.hasFile t = true := by
              have h2 := isEmptyNode_pruneTree t
              rw [hemp] at h2
              cases hft : FSTree.hasFile t
              · rw [hft] at h2
                exact Bool.noConfusion h2
              · rfl
            rcases hasFile_exists_fileAt t hhf with ⟨ρf, f, hf⟩
            refine ⟨ρf, f, ?_⟩
            simp only [List.nil_append, FSForest.fileAtF, Bool.or_eq_true]
            left
            rw [pruneTree_fileAt t ρf f, hf, hnm]
            simp
          | cons p ps =>
            rcases pruneTree_dirExists_file t p ps hde with ⟨ρ2, f, hf⟩
            refine ⟨ρ2, f, ?_⟩
            simp only [List.cons_append, FSForest.fileAtF, Bool.or_eq_true]
            left
            rw [hf, hnm]
            simp
        · rcases pruneForest_dirExistsF_file rest n ρ hre with ⟨ρ2, f, hf⟩
          refine ⟨ρ2, f, ?_⟩
          simp only [FSForest.fileAtF, Bool.or_eq_true]
          right
          exact hf
end

mutual
theorem dirExists_ofAppend : ∀ (t : FSTree) (δ1 δ2 : List PyStr),
    FSTree.dirExists t (δ1 ++ δ2) = true → FSTree.dirExists t δ1 = true
  | .node fs sd, [], _ => fun _ => rfl
  | .node fs sd, n :: ρ, δ2 => fun h => by
      simp only [List.cons_append, FSTree.dirExists] at h ⊢
      exact dirExistsF_ofAppend sd n ρ δ2 h
theorem dirExistsF_ofAppend : ∀ (sd : FSForest) (n : PyStr) (ρ δ2 : List PyStr),
    FSForest.dirExistsF sd n (ρ ++ δ2) = true → FSForest.dirExistsF sd n ρ = true
  | .nil, n, ρ, δ2 => fun h => by simp [FSForest.dirExistsF] at h
  | .cons m t rest, n, ρ, δ2 => fun h => by
      simp only [FSForest.dirExistsF, Bool.or_eq_true, Bool.and_eq_true,
        decide_eq_true_eq] at h ⊢
      rcases h with ⟨hnm, hde⟩ | hre
      · exact Or.inl ⟨hnm, dirExists_ofAppend t ρ δ2 hde⟩
      · exact Or.inr (dirExistsF_ofAppend rest n ρ δ2 hre)
end

mutual
theorem dirExists_eq_isSome_dirAt : ∀ (t : FSTree), FSTree.namesNodup t = true →
    ∀ (δ : List PyStr), FSTree.dirExists t δ = (FSTree.dirAt t δ).isSome
  | .node fs sd, hnd, [] => by simp [FSTree.dirExists, FSTree.dirAt]
  | .node fs sd, hnd, n :: ρ => by
      simp only [FSTree.dirExists, FSTree.dirAt]
      exact dirExistsF_eq_isSome_dirAtF sd (by simpa [FSTree.namesNodup] using hnd) n ρ
theorem dirExistsF_eq_isSome_dirAtF : ∀ (sd : FSForest),
    FSForest.namesNodupF sd = true →
    ∀ (n : PyStr) (ρ : List PyStr),
      FSForest.dirExistsF sd n ρ = (FSForest.dirAtF sd n ρ).isSome
  | .nil, _, n, ρ => by simp [FSForest.dirExistsF, FSForest.dirAtF]
  | .cons m t rest, hnd, n, ρ => by
      simp only [FSForest.namesNodupF, Bool.and_eq_true] at hnd
      by_cases hnm : n = m
      · simp only [FSForest.dirExistsF, FSForest.dirAtF, if_pos hnm]
        have hrest : FSForest.dirExistsF rest n ρ = false := by
          apply hasName_false_dirExistsF
          rw [hnm]
          simpa using hnd.1.1
        rw [hrest, dirExists_eq_isSome_dirAt t hnd.1.2 ρ]
        simp [hnm]
      · simp only [FSForest.dirExistsF, FSForest.dirAtF, if_neg hnm]
        have hdd : decide (n = m) = false := by simpa using hnm
        rw [hdd]
        simp only [Bool.false_and, Bool.false_or]
        exact dirExistsF_eq_isSome_dirAtF rest hnd.2 n ρ
end

mutual
theorem dirAt_setAt : ∀ (root : FSTree) (π : List PyStr) (t2 : FSTree),
    (FSTree.dirAt root π).isSome = true →
    FSTree.dirAt (FSTree.setAt root π t2) π = some t2
  | root, [], t2 => fun _ => by simp [FSTree.setAt, FSTree.dirAt]
  | .node fs sd, n :: π2, t2 => fun h => by
      simp only [FSTree.setAt, FSTree.dirAt] at h ⊢
      exact dirAtF_setAtF sd n π2 t2 h
theorem dirAtF_setAtF : ∀ (sd : FSForest) (n : PyStr) (π2 : List PyStr) (t2 : FSTree),
    (FSForest.dirAtF sd n π2).isSome = true →
    FSForest.dirAtF (FSForest.setAtF sd n π2 t2) n π2 = some t2
  | .nil, n, π2, t2 => fun h => by simp [FSForest.dirAtF] at h
  | .cons m t rest, n, π2, t2 => fun h => by
      by_cases hnm : n = m
      · simp only [FSForest.setAtF, if_pos hnm, FSForest.dirAtF]
        have h2 : (FSTree.dirAt t π2).isSome = true := by
          simpa [FSForest.dirAtF, if_pos hnm] using h
        exact dirAt_setAt t π2 t2 h2
      · simp only [FSForest.setAtF, if_neg hnm, FSForest.dirAtF]
        have h2 : (FSForest.dirAtF rest n π2).isSome = true := by
          simpa [FSForest.dirAtF, if_neg hnm] using h
        exact dirAtF_setAtF rest n π2 t2 h2
end

mutual
theorem dirAt_namesNodup : ∀ (root : FSTree) (π : List PyStr) (d : FSTree),
    FSTree.namesNodup root = true → FSTree.dirAt root π = some d →
    FSTree.namesNodup d = true
  | root, [], d => fun hnd hdir => by
      have : root = d := by simpa [FSTree.dirAt] using hdir
      rw [← this]
      exact hnd
  | .node fs sd, n :: π2, d => fun hnd hdir => by
      simp only [FSTree.dirAt] at hdir
      exact dirAtF_namesNodupF sd n π2 d (by simpa [FSTree.namesNodup] using hnd) hdir
theorem dirAtF_namesNodupF : ∀ (sd : FSForest) (n : PyStr) (π2 : List PyStr)
    (d : FSTree),
    FSForest.namesNodupF sd = true → FSForest.dirAtF sd n π2 = some d →
    FSTree.namesNodup d = true
  | .nil, n, π2, d => fun _ hdir => by simp [FSForest.dirAtF] at hdir
  | .cons m t rest, n, π2, d => fun hnd hdir => by
      simp only [FSForest.namesNodupF, Bool.and_eq_true] at hnd
      by_cases hnm : n = m
      · have h2 : FSTree.dirAt t π2 = some d := by
          simpa [FSForest.dirAtF, if_pos hnm] using hdir
        exact dirAt_namesNodup t π2 d hnd.1.2 h2
      · have h2 : FSForest.dirAtF rest n π2 = some d := by
          simpa [FSForest.dirAtF, if_neg hnm] using hdir
        exact dirAtF_namesNodupF rest n π2 d hnd.2 h2
end

theorem hasName_setAtF : ∀ (sd : FSForest) (n : PyStr) (π2 : List PyStr) (t2 : FSTree)
    (k : PyStr),
    FSForest.hasName (FSForest.setAtF sd n π2 t2) k = FSForest.hasName sd k
  | .nil, _, _, _, _ => rfl
  | .cons m t rest, n, π2, t2, k => by
      by_cases hnm : n = m
      · simp [FSForest.setAtF, if_pos hnm, FSForest.hasName]
      · simp [FSForest.setAtF, if_neg hnm, FSForest.hasName,
          hasName_setAtF rest n π2 t2 k]

mutual
theorem setAt_namesNodup : ∀ (root : FSTree) (π : List PyStr) (t2 : FSTree),
    FSTree.namesNodup root = true → FSTree.namesNodup t2 = true →
    FSTree.namesNodup (FSTree.setAt root π t2) = true
  | root, [], t2 => fun _ h2 => by simpa [FSTree.setAt] using h2
  | .node fs sd, n :: π2, t2 => fun hnd h2 => by
      simp only [FSTree.setAt, FSTree.namesNodup]
      exact setAtF_namesNodupF sd n π2 t2 (by simpa [FSTree.namesNodup] using hnd) h2
theorem setAtF_namesNodupF : ∀ (sd : FSForest) (n : PyStr) (π2 : List PyStr)
    (t2 : FSTree),
    FSForest.namesNodupF sd = true → FSTree.namesNodup t2 = true →
    FSForest.namesNodupF (FSForest.setAtF sd n π2 t2) = true
  | .nil, _, _, _ => fun _ _ => rfl
  | .cons m t rest, n, π2, t2 => fun hnd h2 => by
      simp only [FSForest.namesNodupF, Bool.and_eq_true] at hnd
      by_cases hnm : n = m
      · simp only [FSForest.setAtF, if_pos hnm, FSForest.namesNodupF,
          Bool.and_eq_true]
        exact ⟨⟨hnd.1.1, setAt_namesNodup t π2 t2 hnd.1.2 h2⟩, hnd.2⟩
      · simp only [FSForest.setAtF, if_neg hnm, FSForest.namesNodupF,
          Bool.and_eq_true]
        refine ⟨⟨?_, hnd.1.2⟩, setAtF_namesNodupF rest n π2 t2 hnd.2 h2⟩
        rw [hasName_setAtF rest n π2 t2 m]
        exact hnd.1.1
end

theorem hasName_delAtF_le : ∀ (sd : FSForest) (n : PyStr) (ρ : List PyStr)
    (k : PyStr),
    FSForest.hasName (FSForest.delAtF sd n ρ) k = true →
    FSForest.hasName sd k = true
  | .nil, _, _, _ => fun h => h
  | .cons m t rest, n, ρ, k => fun h => by
      by_cases hnm : n = m
      · cases ρ with
        | nil =>
          simp only [FSForest.delAtF, if_pos hnm] at h
          simp only [FSForest.hasName, Bool.or_eq_true]
          exact Or.inr h
        | cons p ps =>
          simp only [FSForest.delAtF, if_pos hnm] at h
          simpa [FSForest.hasName] using h
      · simp only [FSForest.delAtF, if_neg hnm] at h
        simp only [FSForest.hasName, Bool.or_eq_true] at h ⊢
        rcases h with h1 | h2
        · exact Or.inl h1
        · exact Or.inr (hasName_delAtF_le rest n ρ k h2)

mutual
theorem delAt_namesNodup : ∀ (root : FSTree) (π : List PyStr),
    FSTree.namesNodup root = true → FSTree.namesNodup (FSTree.delAt root π) = true
  | .node fs sd, [] => fun hnd => by simpa [FSTree.delAt] using hnd
  | .node fs sd, n :: π2 => fun hnd => by
      simp only [FSTree.delAt, FSTree.namesNodup]
      exact delAtF_namesNodupF sd n π2 (by simpa [FSTree.namesNodup] using hnd)
theorem delAtF_namesNodupF : ∀ (sd : FSForest) (n : PyStr) (ρ : List PyStr),
    FSForest.namesNodupF sd = true →
    FSForest.namesNodupF (FSForest.delAtF sd n ρ) = true
  | .nil, _, _ => fun _ => rfl
  | .cons m t rest, n, ρ => fun hnd => by
      simp only [FSForest.namesNodupF, Bool.and_eq_true] at hnd
      by_cases hnm : n = m
      · cases ρ with
        | nil =>
          simp only [FSForest.delAtF, if_pos hnm]
          exact hnd.2
        | cons p ps =>
          simp only [FSForest.delAtF, if_pos hnm, FSForest.namesNodupF,
            Bool.and_eq_true]
          exact ⟨⟨hnd.1.1, delAt_namesNodup t (p :: ps) hnd.1.2⟩, hnd.2⟩
      · simp only [FSForest.delAtF, if_neg hnm, FSForest.namesNodupF,
          Bool.and_eq_true]
        refine ⟨⟨?_, hnd.1.2⟩, delAtF_namesNodupF rest n ρ hnd.2⟩
        cases hh : FSForest.hasName (FSForest.delAtF rest n ρ) m
        · rfl
        · have h4 : FSForest.hasName rest m = false := by simpa using hnd.1.1
          rw [hasName_delAtF_le rest n ρ m hh] at h4
          exact Bool.noConfusion h4
end

theorem hasName_pruneForest_le : ∀ (sd : FSForest) (k : PyStr),
    FSForest.hasName (pruneForest sd) k = true → FSForest.hasName sd k = true
  | .nil, _ => fun h => h
  | .cons m t rest, k => fun h => by
      simp only [pruneForest] at h
      by_cases hemp : FSTree.isEmptyNode (pruneTree t) = true
      · rw [if_pos hemp] at h
        simp only [FSForest.hasName, Bool.or_eq_true]
        exact Or.inr (hasName_pruneForest_le rest k h)
      · rw [if_neg hemp] at h
        simp only [FSForest.hasName, Bool.or_eq_true] at h ⊢
        rcases h with h1 | h2
        · exact Or.inl h1
        · exact Or.inr (hasName_pruneForest_le rest k h2)

mutual
theorem pruneTree_namesNodup : ∀ (t : FSTree), FSTree.namesNodup t = true →
    FSTree.namesNodup (pruneTree t) = true
  | .node fs sd => fun hnd => by
      simp only [pruneTree, FSTree.namesNodup] at hnd ⊢
      exact pruneForest_namesNodupF sd hnd
theorem pruneForest_namesNodupF : ∀ (sd : FSForest), FSForest.namesNodupF sd = true →
    FSForest.namesNodupF (pruneForest sd) = true
  | .nil => fun _ => rfl
  | .cons m t rest => fun hnd => by
      simp only [FSForest.namesNodupF, Bool.and_eq_true] at hnd
      simp only [pruneForest]
      by_cases hemp : FSTree.isEmptyNode (pruneTree t) = true
      · rw [if_pos hemp]
        exact pruneForest_namesNodupF rest hnd.2
      · rw [if_neg hemp]
        simp only [FSForest.namesNodupF, Bool.and_eq_true]
        refine ⟨⟨?_, pruneTree_namesNodup t hnd.1.2⟩,
          pruneForest_namesNodupF rest hnd.2⟩
        cases hh : FSForest.hasName (pruneForest rest) m
        · rfl
        · have h4 : FSForest.hasName rest m = false := by simpa using hnd.1.1
          rw [hasName_pruneForest_le rest m hh] at h4
          exact Bool.noConfusion h4
end

theorem hasName_handleForest : ∀ (pref : List PyStr) (sd : FSForest) (k : PyStr),
    FSForest.hasName (handleForest pref sd).1 k = FSForest.hasName sd k
  | _, .nil, _ => rfl
  | pref, .cons m t rest, k => by
      simp only [handleForest, FSForest.hasName,
        hasName_handleForest pref rest k]

mutual
theorem handleTree_namesNodup : ∀ (pref : List PyStr) (t : FSTree),
    FSTree.namesNodup t = true → FSTree.namesNodup (handleTree pref t).1 = true
  | pref, .node fs sd => fun hnd => by
      simp only [handleTree, FSTree.namesNodup] at hnd ⊢
      exact handleForest_namesNodupF pref sd hnd
theorem handleForest_namesNodupF : ∀ (pref : List PyStr) (sd : FSForest),
    FSForest.namesNodupF sd = true →
    FSForest.namesNodupF (handleForest pref sd).1 = true
  | _, .nil => fun _ => rfl
  | pref, .cons m t rest => fun hnd => by
      simp only [FSForest.namesNodupF, Bool.and_eq_true] at hnd
      simp only [handleForest, FSForest.namesNodupF, Bool.and_eq_true]
      refine ⟨⟨?_, handleTree_namesNodup (pref ++ [m]) t hnd.1.2⟩,
        handleForest_namesNodupF pref rest hnd.2⟩
      rw [hasName_handleForest pref rest m]
      exact hnd.1.1
end

mutual
theorem setAt_dirExists_at : ∀ (root : FSTree) (π : List PyStr) (t2 : FSTree),
    FSTree.namesNodup root = true →
    (FSTree.dirAt root π).isSome = true →
    ∀ σ, FSTree.dirExists (FSTree.setAt root π t2) (π ++ σ) = FSTree.dirExists t2 σ
  | root, [], t2 => fun _ _ σ => by
      simp only [FSTree.setAt, List.nil_append]
  | .node fs sd, n :: π2, t2 => fun hnd hdir σ => by
      simp only [FSTree.setAt, List.cons_append, FSTree.dirExists]
      exact setAtF_dirExistsF_at sd n π2 t2 (by simpa [FSTree.namesNodup] using hnd)
        (by simpa [FSTree.dirAt] using hdir) σ
theorem setAtF_dirExistsF_at : ∀ (sd : FSForest) (n : PyStr) (π2 : List PyStr)
    (t2 : FSTree),
    FSForest.namesNodupF sd = true →
    (FSForest.dirAtF sd n π2).isSome = true →
    ∀ σ, FSForest.dirExistsF (FSForest.setAtF sd n π2 t2) n (π2 ++ σ) =
      FSTree.dirExists t2 σ
  | .nil, n, π2, t2 => fun _ hdir _ => by simp [FSForest.dirAtF] at hdir
  | .cons m t rest, n, π2, t2 => fun hnd hdir σ => by
      simp only [FSForest.namesNodupF, Bool.and_eq_true] at hnd
      by_cases hnm : n = m
      · simp only [FSForest.setAtF, if_pos hnm, FSForest.dirExistsF]
        have hrest : FSForest.dirExistsF rest n (π2 ++ σ) = false := by
          apply hasName_false_dirExistsF
          rw [hnm]
          simpa using hnd.1.1
        rw [hrest]
        have hdt : (FSTree.dirAt t π2).isSome = true := by
          simpa [FSForest.dirAtF, if_pos hnm] using hdir
        rw [setAt_dirExists_at t π2 t2 hnd.1.2 hdt σ]
        simp [hnm]
      · simp only [FSForest.setAtF, if_neg hnm, FSForest.dirExistsF]
        have hdd : decide (n = m) = false := by simpa using hnm
        rw [hdd]
        simp only [Bool.false_and, Bool.false_or]
        exact setAtF_dirExistsF_at rest n π2 t2 hnd.2
          (by simpa [FSForest.dirAtF, if_neg hnm] using hdir) σ
end

mutual
theorem pruneTree_dirExists_mono : ∀ (t : FSTree) (δ : List PyStr),
    FSTree.dirExists (pruneTree t) δ = true → FSTree.dirExists t δ = true
  | .node fs sd, [] => fun _ => rfl
  | .node fs sd, n :: ρ => fun h => by
      simp only [pruneTree, FSTree.dirExists] at h ⊢
      exact pruneForest_dirExistsF_mono sd n ρ h
theorem pruneForest_dirExistsF_mono : ∀ (sd : FSForest) (n : PyStr)
    (ρ : List PyStr),
    FSForest.dirExistsF (pruneForest sd) n ρ = true →
    FSForest.dirExistsF sd n ρ = true
  | .nil, _, _ => fun h => h
  | .cons m t rest, n, ρ => fun h => by
      simp only [pruneForest] at h
      by_cases hemp : FSTree.isEmptyNode (pruneTree t) = true
      · rw [if_pos hemp] at h
        simp only [FSForest.dirExistsF, Bool.or_eq_true]
        exact Or.inr (pruneForest_dirExistsF_mono rest n ρ h)
      · rw [if_neg hemp] at h
        simp only [FSForest.dirExistsF, Bool.or_eq_true, Bool.and_eq_true] at h ⊢
        rcases h with ⟨hnm, hde⟩ | hre
        · exact Or.inl ⟨hnm, pruneTree_dirExists_mono t ρ hde⟩
        · exact Or.inr (pruneForest_dirExistsF_mono rest n ρ hre)
end

mutual
theorem setAt_dirExists_mono : ∀ (root : FSTree) (π : List PyStr) (d t2 : FSTree),
    FSTree.dirAt root π = some d →
    (∀ σ, FSTree.dirExists t2 σ = true → FSTree.dirExists d σ = true) →
    ∀ δ, FSTree.dirExists (FSTree.setAt root π t2) δ = true →
      FSTree.dirExists root δ = true
  | root, [], d, t2 => fun hdir hmono δ h => by
      have hrd : root = d := by simpa [FSTree.dirAt] using hdir
      rw [hrd]
      apply hmono
      simpa [FSTree.setAt] using h
  | .node fs sd, n :: π2, d, t2 => fun hdir hmono δ h => by
      cases δ with
      | nil => rfl
      | cons k δ2 =>
        simp only [FSTree.setAt, FSTree.dirExists] at h ⊢
        exact setAtF_dirExistsF_mono sd n π2 d t2
          (by simpa [FSTree.dirAt] using hdir) hmono k δ2 h
theorem setAtF_dirExistsF_mono : ∀ (sd : FSForest) (n : PyStr) (π2 : List PyStr)
    (d t2 : FSTree),
    FSForest.dirAtF sd n π2 = some d →
    (∀ σ, FSTree.dirExists t2 σ = true → FSTree.dirExists d σ = true) →
    ∀ k δ2, FSForest.dirExistsF (FSForest.setAtF sd n π2 t2) k δ2 = true →
      FSForest.dirExistsF sd k δ2 = true
  | .nil, n, π2, d, t2 => fun hdir _ _ _ _ => by simp [FSForest.dirAtF] at hdir
  | .cons m t rest, n, π2, d, t2 => fun hdir hmono k δ2 h => by
      by_cases hnm : n = m
      · simp only [FSForest.setAtF, if_pos hnm] at h
        simp only [FSForest.dirExistsF, Bool.or_eq_true, Bool.and_eq_true] at h ⊢
        rcases h with ⟨hkm, hde⟩ | hre
        · exact Or.inl ⟨hkm, setAt_dirExists_mono t π2 d t2
            (by simpa [FSForest.dirAtF, if_pos hnm] using hdir) hmono δ2 hde⟩
        · exact Or.inr hre
      · simp only [FSForest.setAtF, if_neg hnm] at h
        simp only [FSForest.dirExistsF, Bool.or_eq_true, Bool.and_eq_true] at h ⊢
        rcases h with ⟨hkm, hde⟩ | hre
        · exact Or.inl ⟨hkm, hde⟩
        · exact Or.inr (setAtF_dirExistsF_mono rest n π2 d t2
            (by simpa [FSForest.dirAtF, if_neg hnm] using hdir) hmono k δ2 hre)
end

mutual
theorem delAt_dirExists_mono : ∀ (root : FSTree) (π : List PyStr) (δ : List PyStr),
    FSTree.dirExists (FSTree.delAt root π) δ = true → FSTree.dirExists root δ = true
  | .node fs sd, [], δ => fun h => by simpa [FSTree.delAt] using h
  | .node fs sd, n :: π2, δ => fun h => by
      cases δ with
      | nil => rfl
      | cons k δ2 =>
        simp only [FSTree.delAt, FSTree.dirExists] at h ⊢
        exact delAtF_dirExistsF_mono sd n π2 k δ2 h
theorem delAtF_dirExistsF_mono : ∀ (sd : FSForest) (n : PyStr) (ρ : List PyStr)
    (k : PyStr) (δ2 : List PyStr),
    FSForest.dirExistsF (FSForest.delAtF sd n ρ) k δ2 = true →
    FSForest.dirExistsF sd k δ2 = true
  | .nil, _, _, _, _ => fun h => h
  | .cons m t rest, n, ρ, k, δ2 => fun h => by
      by_cases hnm : n = m
      · cases ρ with
        | nil =>
          simp only [FSForest.delAtF, if_pos hnm] at h
          simp only [FSForest.dirExistsF, Bool.or_eq_true]
          exact Or.inr h
        | cons p ps =>
          simp only [FSForest.delAtF, if_pos hnm] at h
          simp only [FSForest.dirExistsF, Bool.or_eq_true, Bool.and_eq_true] at h ⊢
          rcases h with ⟨hkm, hde⟩ | hre
          · exact Or.inl ⟨hkm, delAt_dirExists_mono t (p :: ps) δ2 hde⟩
          · exact Or.inr hre
      · simp only [FSForest.delAtF, if_neg hnm] at h
        simp only [FSForest.dirExistsF, Bool.or_eq_true, Bool.and_eq_true] at h ⊢
        rcases h with ⟨hkm, hde⟩ | hre
        · exact Or.inl ⟨hkm, hde⟩
        · exact Or.inr (delAtF_dirExistsF_mono rest n ρ k δ2 hre)
end

theorem hasName_delAtF_self : ∀ (sd : FSForest) (n : PyStr),
    FSForest.namesNodupF sd = true →
    FSForest.hasName (FSForest.delAtF sd n []) n = false
  | .nil, _ => fun _ => rfl
  | .cons m t rest, n => fun hnd => by
      simp only [FSForest.namesNodupF, Bool.and_eq_true] at hnd
      by_cases hnm : n = m
      · simp only [FSForest.delAtF, if_pos hnm]
        rw [hnm]
        simpa using hnd.1.1
      · simp only [FSForest.delAtF, if_neg hnm, FSForest.hasName]
        have hdd : decide (n = m) = false := by simpa using hnm
        rw [hdd, hasName_delAtF_self rest n hnd.2]
        rfl

mutual
theorem delAt_dirExists_self : ∀ (root : FSTree) (n : PyStr) (ρ : List PyStr),
    FSTree.namesNodup root = true →
    FSTree.dirExists (FSTree.delAt root (n :: ρ)) (n :: ρ) = false
  | .node fs sd, n, ρ => fun hnd => by
      simp only [FSTree.delAt, FSTree.dirExists]
      exact delAtF_dirExistsF_self sd n ρ (by simpa [FSTree.namesNodup] using hnd)
theorem delAtF_dirExistsF_self : ∀ (sd : FSForest) (n : PyStr) (ρ : List PyStr),
    FSForest.namesNodupF sd = true →
    FSForest.dirExistsF (FSForest.delAtF sd n ρ) n ρ = false
  | .nil, _, _ => fun _ => rfl
  | .cons m t rest, n, ρ => fun hnd => by
      simp only [FSForest.namesNodupF, Bool.and_eq_true] at hnd
      have hrestname : FSForest.hasName rest m = false := by simpa using hnd.1.1
      by_cases hnm : n = m
      · cases ρ with
        | nil =>
          simp only [FSForest.delAtF, if_pos hnm]
          apply hasName_false_dirExistsF
          rw [hnm]
          exact hrestname
        | cons p ps =>
          simp only [FSForest.delAtF, if_pos hnm, FSForest.dirExistsF]
          rw [delAt_dirExists_self t p ps hnd.1.2]
          rw [hasName_false_dirExistsF rest n (p :: ps) (by rw [hnm]; exact hrestname)]
          simp
      · simp only [FSForest.delAtF, if_neg hnm, FSForest.dirExistsF]
        have hdd : decide (n = m) = false := by simpa using hnm
        rw [hdd, delAtF_dirExistsF_self rest n ρ hnd.2]
        simp
end

theorem remove_empty_dirs_dirExists_mono_aux : ∀ (k : Nat) (π : List PyStr),
    π.length ≤ k → ∀ (root : FSTree) (δ : List PyStr),
    FSTree.dirExists (remove_empty_dirs root π) δ = true →
    FSTree.dirExists root δ = true := by
  intro k
  induction k with
  | zero =>
    intro π hlen root δ h
    have hπ : π = [] := List.length_eq_zero.mp (Nat.le_zero.mp hlen)
    subst hπ
    simp only [remove_empty_dirs] at h
    rw [pruneNode_eq_pruneTree] at h
    exact pruneTree_dirExists_mono root δ h
  | succ kk ih =>
    intro π hlen root δ h
    cases π with
    | nil =>
      simp only [remove_empty_dirs] at h
      rw [pruneNode_eq_pruneTree] at h
      exact pruneTree_dirExists_mono root δ h
    | cons n ρπ =>
      simp only [remove_empty_dirs] at h
      cases hdir : FSTree.dirAt root (n :: ρπ) with
      | none =>
        rw [hdir] at h
        exact h
      | some d =>
        rw [hdir] at h
        dsimp only at h
        by_cases he : FSTree.isEmptyNode (pruneNode d) = true
        · rw [if_pos he] at h
          by_cases hdl : (n :: ρπ).dropLast = []
          · rw [if_pos hdl] at h
            exact delAt_dirExists_mono root (n :: ρπ) δ h
          · rw [if_neg hdl] at h
            have hlen2 : ((n :: ρπ).dropLast).length ≤ kk := by
              simp only [List.length_dropLast, List.length_cons] at hlen ⊢
              omega
            exact delAt_dirExists_mono root (n :: ρπ) δ
              (ih ((n :: ρπ).dropLast) hlen2 _ δ h)
        · rw [if_neg he] at h
          refine setAt_dirExists_mono root (n :: ρπ) d (pruneNode d) hdir ?_ δ h
          intro σ hσ
          rw [pruneNode_eq_pruneTree] at hσ
          exact pruneTree_dirExists_mono d σ hσ

theorem remove_empty_dirs_complete_aux : ∀ (k : Nat) (π : List PyStr),
    π.length ≤ k → ∀ (root : FSTree), FSTree.namesNodup root = true →
    ∀ (n : PyStr) (ρ : List PyStr),
      FSTree.dirExists (remove_empty_dirs root π) (π ++ (n :: ρ)) = true →
      ∃ ρ2 f,
        FSTree.fileAt (remove_empty_dirs root π) (π ++ (n :: (ρ ++ ρ2))) f = true := by
  intro k
  induction k with
  | zero =>
    intro π hlen root hnd n ρ h
    have hπ : π = [] := List.length_eq_zero.mp (Nat.le_zero.mp hlen)
    subst hπ
    cases root with
    | node fs sd =>
      simp only [remove_empty_dirs, pruneNode, List.nil_append, FSTree.dirExists] at h
      rcases pruneForest_dirExistsF_file sd n ρ h with ⟨ρ2, f, hf⟩
      exact ⟨ρ2, f, by simpa [remove_empty_dirs, pruneNode, FSTree.fileAt] using hf⟩
  | succ kk ih =>
    intro π hlen root hnd n ρ h
    cases π with
    | nil =>
      cases root with
      | node fs sd =>
        simp only [remove_empty_dirs, pruneNode, List.nil_append,
          FSTree.dirExists] at h
        rcases pruneForest_dirExistsF_file sd n ρ h with ⟨ρ2, f, hf⟩
        exact ⟨ρ2, f, by simpa [remove_empty_dirs, pruneNode, FSTree.fileAt] using hf⟩
    | cons n0 ρ0 =>
      simp only [remove_empty_dirs] at h ⊢
      cases hdir : FSTree.dirAt root (n0 :: ρ0) with
      | none =>
        rw [hdir] at h
        dsimp only at h
        exfalso
        have h2 := dirExists_ofAppend root (n0 :: ρ0) (n :: ρ) h
        rw [dirExists_eq_isSome_dirAt root hnd, hdir] at h2
        exact Bool.noConfusion h2
      | some d =>
        rw [hdir] at h
        dsimp only at h ⊢
        by_cases he : FSTree.isEmptyNode (pruneNode d) = true
        · rw [if_pos he] at h ⊢
          by_cases hdl : (n0 :: ρ0).dropLast = []
          · rw [if_pos hdl] at h ⊢
            exfalso
            have hρ0 : ρ0 = [] := by
              cases ρ0 with
              | nil => rfl
              | cons a b => simp [List.dropLast] at hdl
            subst hρ0
            cases root with
            | node fs sd =>
              simp only [FSTree.delAt, List.cons_append, List.nil_append,
                FSTree.dirExists] at h
              have hn0 : FSForest.hasName (FSForest.delAtF sd n0 []) n0 = false :=
                hasName_delAtF_self sd n0 (by simpa [FSTree.namesNodup] using hnd)
              rw [hasName_false_dirExistsF _ _ _ hn0] at h
              exact Bool.noConfusion h
          · rw [if_neg hdl] at h ⊢
            have hlen2 : ((n0 :: ρ0).dropLast).length ≤ kk := by
              simp only [List.length_dropLast, List.length_cons] at hlen ⊢
              omega
            have hne : (n0 :: ρ0) ≠ [] := by simp
            have hsplit : (n0 :: ρ0).dropLast ++ [(n0 :: ρ0).getLast hne] = n0 :: ρ0 :=
              List.dropLast_append_getLast hne
            have hnd2 : FSTree.namesNodup (FSTree.delAt root (n0 :: ρ0)) = true :=
              delAt_namesNodup root (n0 :: ρ0) hnd
            have hpath : (n0 :: ρ0) ++ (n :: ρ) =
                (n0 :: ρ0).dropLast ++ (((n0 :: ρ0).getLast hne) :: (n :: ρ)) := by
              conv_lhs => rw [← hsplit]
              rw [List.append_assoc, List.singleton_append]
            rw [hpath] at h
            rcases ih _ hlen2 _ hnd2 _ _ h with ⟨ρ2, f, hf⟩
            refine ⟨ρ2, f, ?_⟩
            have hpath2 : (n0 :: ρ0) ++ (n :: (ρ ++ ρ2)) =
                (n0 :: ρ0).dropLast ++
                  (((n0 :: ρ0).getLast hne) :: (n :: (ρ ++ ρ2))) := by
              conv_lhs => rw [← hsplit]
              rw [List.append_assoc, List.singleton_append]
            rw [hpath2]
            simpa [List.cons_append] using hf
        · rw [if_neg he] at h ⊢
          have hsome : (FSTree.dirAt root (n0 :: ρ0)).isSome = true := by
            rw [hdir]
            rfl
          rw [setAt_dirExists_at root (n0 :: ρ0) (pruneNode d) hnd hsome (n :: ρ)] at h
          rw [pruneNode_eq_pruneTree] at h
          rcases pruneTree_dirExists_file d n ρ h with ⟨ρ2, f, hf⟩
          refine ⟨ρ2, f, ?_⟩
          rw [setAt_fileAt_at root (n0 :: ρ0) (pruneNode d) hnd hsome (n :: (ρ ++ ρ2)) f]
          rw [pruneNode_eq_pruneTree]
          exact hf
/-- The concrete tree watch/a/{x.mp3, c.jpg, t.txt} used as the C8 witness. -/
def wDir : FSTree :=
  FSTree.node [("x.mp3".data), ("c.jpg".data), ("t.txt".data)] FSForest.nil

/-- The watch root holding wDir at child a. -/
def wRoot : FSTree :=
  FSTree.node [] (FSForest.cons ("a".data) wDir FSForest.nil)

/-- A second C8 witness tree watch/b/c/t.txt: after t.txt moves to the
unknown tree, the directories c and b hold no entries and are pruned. -/
def wDir2 : FSTree :=
  FSTree.node []
    (FSForest.cons ("c".data) (FSTree.node [("t.txt".data)] FSForest.nil) FSForest.nil)

/-- The watch root holding wDir2 at child b. -/
def wRoot2 : FSTree :=
  FSTree.node [] (FSForest.cons ("b".data) wDir2 FSForest.nil)

/-- C8: when the reconciler runs on the drained directory at path π (its
subtree d), writing final and moved for the two components of
handle_remaining_files root π and handled for the tree with the disposition
walk applied but not yet pruned: (1) every remaining file is disposed of by
extension — media files stay in place and non-media files disappear from
the subtree; (2) the moved set is exactly the non-media non-image files at
their mirrored unknown-tree paths; (3) image files are never moved (they
are deleted outright); (4) a directory still holding a file after the
disposition walk survives the prune — directories are removed only when
they hold no entries; (5) the prune deletes no file; (6) pruning below the
processed directory is complete — every surviving directory strictly below
π still contains a file; (7) the processed directory itself is removed
exactly when the walk left no file in it (never when π is the watch root
itself, matching the stop_at guard of remove_empty_dirs); (8) when the
emptied processed directory is deleted the walk continues bottom-up at its
parent, so pruning is complete below the parent as well. The watch root is
never deleted: the model returns a tree rooted there, and the walk stops
once dropLast reaches the root, exactly like stop_at in the code. -/
theorem C8_reconcile (root d : FSTree) (π : List PyStr)
    (hd : FSTree.dirAt root π = some d)
    (hnd : FSTree.namesNodup root = true) :
    (∀ ρ f, FSTree.fileAt d ρ f = true →
      ((endsWithOne f mediaExts = true →
          FSTree.fileAt (handle_remaining_files root π).1 (π ++ ρ) f = true) ∧
       (endsWithOne f mediaExts = false →
          FSTree.fileAt (handle_remaining_files root π).1 (π ++ ρ) f = false))) ∧
    (∀ dest, dest ∈ (handle_remaining_files root π).2 ↔
      ∃ ρ f, FSTree.fileAt d ρ f = true ∧ endsWithOne f mediaExts = false ∧
        endsWithOne f imageExts = false ∧
        dest = ("unknown".data) :: (π ++ ρ ++ [f])) ∧
    (∀ ρ f, FSTree.fileAt d ρ f = true → endsWithOne f imageExts = true →
      ("unknown".data) :: (π ++ ρ ++ [f]) ∉ (handle_remaining_files root π).2) ∧
    (∀ δ ρ2 f,
      FSTree.fileAt (FSTree.setAt root π (handleTree π d).1) (δ ++ ρ2) f = true →
      FSTree.dirExists (handle_remaining_files root π).1 δ = true) ∧
    (∀ δ f, FSTree.fileAt (handle_remaining_files root π).1 δ f =
      FSTree.fileAt (FSTree.setAt root π (handleTree π d).1) δ f) ∧
    (∀ n ρ,
      FSTree.dirExists (handle_remaining_files root π).1 (π ++ (n :: ρ)) = true →
      ∃ ρ2 f,
        FSTree.fileAt (handle_remaining_files root π).1 (π ++ (n :: (ρ ++ ρ2))) f =
          true) ∧
    ((FSTree.hasFile (handleTree π d).1 = false → π ≠ [] →
        FSTree.dirExists (handle_remaining_files root π).1 π = false) ∧
     (FSTree.hasFile (handleTree π d).1 = true →
        FSTree.dirExists (handle_remaining_files root π).1 π = true)) ∧
    (FSTree.hasFile (handleTree π d).1 = false → π.dropLast ≠ [] →
      ∀ n ρ,
        FSTree.dirExists (handle_remaining_files root π).1
            (π.dropLast ++ (n :: ρ)) = true →
        ∃ ρ2 f,
          FSTree.fileAt (handle_remaining_files root π).1
            (π.dropLast ++ (n :: (ρ ++ ρ2))) f = true) := by
  have hfst : (handle_remaining_files root π).1 =
      remove_empty_dirs (FSTree.setAt root π (handleTree π d).1) π := by
    simp [handle_remaining_files, hd]
  have hsnd : (handle_remaining_files root π).2 = (handleTree π d).2 := by
    simp [handle_remaining_files, hd]
  have hsome : (FSTree.dirAt root π).isSome = true := by
    rw [hd]
    rfl
  have hndh : FSTree.namesNodup (FSTree.setAt root π (handleTree π d).1) = true :=
    setAt_namesNodup root π _ hnd
      (handleTree_namesNodup π d (dirAt_namesNodup root π d hnd hd))
  have hdirh : FSTree.dirAt (FSTree.setAt root π (handleTree π d).1) π =
      some (handleTree π d).1 := dirAt_setAt root π _ hsome
  have hE1 : ∀ δ f, FSTree.fileAt (handle_remaining_files root π).1 δ f =
      FSTree.fileAt (FSTree.setAt root π (handleTree π d).1) δ f := by
    intro δ f
    rw [hfst]
    exact remove_empty_dirs_fileAt _ π δ f
  have hE2 : ∀ ρ f, FSTree.fileAt (handle_remaining_files root π).1 (π ++ ρ) f =
      (FSTree.fileAt d ρ f && endsWithOne f mediaExts) := by
    intro ρ f
    rw [hE1 (π ++ ρ) f, setAt_fileAt_at root π _ hnd hsome ρ f,
      handleTree_fileAt π d ρ f]
  refine ⟨?_, ?_, ?_, ?_, hE1, ?_, ⟨?_, ?_⟩, ?_⟩
  · intro ρ f hf
    constructor
    · intro hm
      rw [hE2, hf, hm]
      rfl
    · intro hm
      rw [hE2, hf, hm]
      rfl
  · intro dest
    rw [hsnd]
    exact handleTree_moved π d dest
  · intro ρ f _ hi hmem
    rw [hsnd] at hmem
    rcases (handleTree_moved π d _).mp hmem with ⟨ρ2, f2, _, _, hi2, heq⟩
    simp only [List.cons.injEq, true_and] at heq
    rcases append_singleton_inj _ _ _ _ heq with ⟨_, hff⟩
    rw [← hff] at hi2
    rw [hi] at hi2
    exact Bool.noConfusion hi2
  · intro δ ρ2 f hf
    have h2 : FSTree.fileAt (handle_remaining_files root π).1 (δ ++ ρ2) f = true := by
      rw [hE1]
      exact hf
    exact fileAt_dirExists _ δ ρ2 f h2
  · intro n ρ h
    rw [hfst] at h ⊢
    exact remove_empty_dirs_complete_aux π.length π (Nat.le_refl _) _ hndh n ρ h
  · intro hnf hne
    rw [hfst]
    cases π with
    | nil => exact absurd rfl hne
    | cons n0 ρ0 =>
      have hemp :
          FSTree.isEmptyNode (pruneNode (handleTree (n0 :: ρ0) d).1) = true := by
        rw [pruneNode_eq_pruneTree, isEmptyNode_pruneTree, hnf]
        rfl
      simp only [remove_empty_dirs, hdirh]
      rw [if_pos hemp]
      by_cases hdl : (n0 :: ρ0).dropLast = []
      · rw [if_pos hdl]
        exact delAt_dirExists_self _ n0 ρ0 hndh
      · rw [if_neg hdl]
        cases hdx : FSTree.dirExists (remove_empty_dirs
            (FSTree.delAt
              (FSTree.setAt root (n0 :: ρ0) (handleTree (n0 :: ρ0) d).1)
              (n0 :: ρ0)) ((n0 :: ρ0).dropLast)) (n0 :: ρ0) with
        | false => rfl
        | true =>
          exfalso
          have h2 := remove_empty_dirs_dirExists_mono_aux
            ((n0 :: ρ0).dropLast).length ((n0 :: ρ0).dropLast) (Nat.le_refl _) _
            (n0 :: ρ0) hdx
          rw [delAt_dirExists_self _ n0 ρ0 hndh] at h2
          exact Bool.noConfusion h2
  · intro hhf
    rcases hasFile_exists_fileAt _ hhf with ⟨ρ, f, hf⟩
    have h2 : FSTree.fileAt (handle_remaining_files root π).1 (π ++ ρ) f = true := by
      rw [hE1, setAt_fileAt_at root π _ hnd hsome ρ f]
      exact hf
    exact fileAt_dirExists _ π ρ f h2
  · intro hnf hdl n ρ h
    have hne : π ≠ [] := by
      intro hp
      rw [hp] at hdl
      exact hdl rfl
    cases π with
    | nil => exact absurd rfl hne
    | cons n0 ρ0 =>
      have hemp :
          FSTree.isEmptyNode (pruneNode (handleTree (n0 :: ρ0) d).1) = true := by
        rw [pruneNode_eq_pruneTree, isEmptyNode_pruneTree, hnf]
        rfl
      have hstep : (handle_remaining_files root (n0 :: ρ0)).1 =
          remove_empty_dirs
            (FSTree.delAt
              (FSTree.setAt root (n0 :: ρ0) (handleTree (n0 :: ρ0) d).1)
              (n0 :: ρ0))
            ((n0 :: ρ0).dropLast) := by
        rw [hfst]
        simp only [remove_empty_dirs, hdirh]
        rw [if_pos hemp, if_neg hdl]
      rw [hstep] at h ⊢
      exact remove_empty_dirs_complete_aux ((n0 :: ρ0).dropLast).length _
        (Nat.le_refl _) _ (delAt_namesNodup _ (n0 :: ρ0) hndh) n ρ h

/-- Witness for C8 at two concrete trees: in watch/a holding x.mp3, c.jpg,
t.txt the media file survives in place, the text file leaves the tree and
lands at unknown/a/t.txt in the moved set, the image is not in the moved
set, and the directory a (still holding x.mp3) survives; in watch/b/c
holding only t.txt, directory b is emptied by the move and is removed. -/
theorem C8_reconcile_witness :
    (FSTree.fileAt (handle_remaining_files wRoot [("a".data)]).1
        ([("a".data)] ++ []) ("x.mp3".data) = true) ∧
    (FSTree.fileAt (handle_remaining_files wRoot [("a".data)]).1
        ([("a".data)] ++ []) ("t.txt".data) = false) ∧
    (("unknown".data) :: ([("a".data)] ++ [] ++ [("t.txt".data)]) ∈
        (handle_remaining_files wRoot [("a".data)]).2) ∧
    (("unknown".data) :: ([("a".data)] ++ [] ++ [("c.jpg".data)]) ∉
        (handle_remaining_files wRoot [("a".data)]).2) ∧
    (FSTree.dirExists (handle_remaining_files wRoot [("a".data)]).1 [("a".data)] =
      true) ∧
    (FSTree.dirExists (handle_remaining_files wRoot2 [("b".data)]).1 [("b".data)] =
      false) := by
  have h := C8_reconcile wRoot wDir [("a".data)] (by decide) (by decide)
  have h2 := C8_reconcile wRoot2 wDir2 [("b".data)] (by decide) (by decide)
  exact ⟨(h.1 [] ("x.mp3".data) (by decide)).1 (by decide),
         (h.1 [] ("t.txt".data) (by decide)).2 (by decide),
         (h.2.1 _).mpr ⟨[], ("t.txt".data), by decide, by decide, by decide, rfl⟩,
         h.2.2.1 [] ("c.jpg".data) (by decide) (by decide),
         h.2.2.2.2.2.2.1.2 (by decide),
         h2.2.2.2.2.2.2.1.1 (by decide) (by decide)⟩

end MusicSort
